import Mathlib

set_option maxHeartbeats 1000000

/-!
Verification development for the flowchart backend (`backend/analyzer.py`).

The embedding covers the three core components:
* the structural extractor `CodeAnalyzer` (an `ast.NodeVisitor` recording,
  for every synchronous function definition, its argument names and a list of
  flow strings derived from the top-level `if` / `for` / `while` / `return`
  statements of the body);
* the graph builder `build_graph_model` (one linear chain of nodes per
  function, grouped by a `subgraph` attribute);
* the renderer `create_logic_flowchart` (grouping nodes into labelled
  clusters and emitting the edge list).

Python strings are modelled as Lean `String`s; the Python string operations
used by the source (`startswith`, `replace`, `join`, f-string formatting of a
natural number) are embedded as executable functions on the character data.
-/

namespace Analyzer

/-- A Python sub-expression as seen by `ast.unparse`: either it renders to a
source text, or `ast.unparse` raises an exception on it. -/
inductive UExpr where
  | renderable (src : String)
  | unrenderable
deriving DecidableEq

/-- `ast.unparse`: `some` of the rendered text, `none` when it raises. -/
def unparse : UExpr → Option String
  | .renderable s => some s
  | .unrenderable => none

mutual
/-- Python statements, restricted to the node kinds the analyzer
distinguishes.  `other` stands for any other statement kind, with the child
statements that `ast.NodeVisitor.generic_visit` would still descend into. -/
inductive Stmt where
  | ifStmt (test : UExpr) (body orelse : Stmts)
  | forStmt (target iter : UExpr) (body orelse : Stmts)
  | whileStmt (test : UExpr) (body orelse : Stmts)
  | returnStmt (value : Option UExpr)
  | functionDef (name : String) (args : List String) (body : Stmts)
  | asyncFunctionDef (name : String) (args : List String) (body : Stmts)
  | other (children : Stmts)
deriving DecidableEq
/-- A statement list (a suite / module body). -/
inductive Stmts where
  | nil
  | cons (s : Stmt) (rest : Stmts)
deriving DecidableEq
end

/-- View a statement list as a Lean list. -/
def Stmts.toList : Stmts → List Stmt
  | .nil => []
  | .cons s r => s :: r.toList

/-- The value stored per function: `{"args": args, "flow": flow}`. -/
structure FunctionFlow where
  args : List String
  flow : List String
deriving DecidableEq, Repr

/-- `analyzer.structure["functions"]`: a Python dict from function name to
its recorded data, modelled as an insertion-ordered association list. -/
abbrev FuncDict := List (String × FunctionFlow)

/-- Python dict assignment `d[k] = v`: overwrite in place if the key is
present (keeping its position), otherwise append at the end. -/
def dictInsert (d : FuncDict) (k : String) (v : FunctionFlow) : FuncDict :=
  if d.any (fun p => p.1 == k) then
    d.map (fun p => if p.1 == k then (k, v) else p)
  else d ++ [(k, v)]

/-- Classification of one top-level `body_item` by the `if/elif` chain in
`CodeAnalyzer.visit_FunctionDef`: `ok (some s)` appends the flow string `s`,
`ok none` appends nothing, `error ()` means `ast.unparse` raised, aborting
the analysis. -/
def bodyStep : Stmt → Except Unit (Option String)
  | .ifStmt test _ _ =>
      match unparse test with
      | none => .error ()
      | some condition => .ok (some ("Decision: if " ++ condition))
  | .forStmt target iter _ _ =>
      match unparse target with
      | none => .error ()
      | some t =>
        match unparse iter with
        | none => .error ()
        | some it => .ok (some ("Loop: for " ++ t ++ " in " ++ it))
  | .whileStmt test _ _ =>
      match unparse test with
      | none => .error ()
      | some condition => .ok (some ("Loop: while " ++ condition))
  | .returnStmt (some v) =>
      match unparse v with
      | none => .error ()
      | some value => .ok (some ("Return " ++ value))
  | .returnStmt none => .ok (some "Return")
  | .functionDef _ _ _ => .ok none
  | .asyncFunctionDef _ _ _ => .ok none
  | .other _ => .ok none

/-- The `for body_item in node.body` loop of `visit_FunctionDef`,
accumulating `flow`; `none` when `ast.unparse` raised. -/
def bodyFlow (flow : List String) : Stmts → Option (List String)
  | .nil => some flow
  | .cons s rest =>
      match bodyStep s with
      | .error _ => none
      | .ok none => bodyFlow flow rest
      | .ok (some x) => bodyFlow (flow ++ [x]) rest

mutual
/-- `CodeAnalyzer.visit` on one statement.  `visit_FunctionDef` records the
entry and then calls `generic_visit`; every other statement kind falls back
to `generic_visit`, which visits the child statements.  `none` models an
`ast.unparse` exception escaping the traversal. -/
def visitStmt (st : FuncDict) : Stmt → Option FuncDict
  | .ifStmt _ body orelse =>
      match visitStmts st body with
      | none => none
      | some st' => visitStmts st' orelse
  | .forStmt _ _ body orelse =>
      match visitStmts st body with
      | none => none
      | some st' => visitStmts st' orelse
  | .whileStmt _ body orelse =>
      match visitStmts st body with
      | none => none
      | some st' => visitStmts st' orelse
  | .returnStmt _ => some st
  | .functionDef name args body =>
      match bodyFlow [] body with
      | none => none
      | some fl => visitStmts (dictInsert st name ⟨args, fl⟩) body
  | .asyncFunctionDef _ _ body => visitStmts st body
  | .other children => visitStmts st children
/-- `CodeAnalyzer.visit` over a statement list. -/
def visitStmts (st : FuncDict) : Stmts → Option FuncDict
  | .nil => some st
  | .cons s rest =>
      match visitStmt st s with
      | none => none
      | some st' => visitStmts st' rest
end

/-- Running `CodeAnalyzer` on a parsed module: start from the empty dict and
visit every top-level statement. -/
def analyze (moduleBody : Stmts) : Option FuncDict :=
  visitStmts [] moduleBody

/-- Python's `s.startswith(p)`: `p` is a prefix of `s` as a character
sequence. -/
def pyStartsWith (s p : String) : Bool :=
  p.data.isPrefixOf s.data

/-- Left-to-right, non-overlapping replacement of every occurrence of `pat`
by `rep`, on character lists; `fuel` is an upper bound on the number of
steps (the input length suffices, as every step consumes at least one
character when `pat` is nonempty). -/
def replaceCore (pat rep : List Char) : Nat → List Char → List Char
  | _, [] => []
  | 0, l => l
  | fuel + 1, c :: rest =>
      if pat.isPrefixOf (c :: rest) && !pat.isEmpty then
        rep ++ replaceCore pat rep fuel ((c :: rest).drop pat.length)
      else
        c :: replaceCore pat rep fuel rest

/-- Python's `s.replace(pat, rep)` (for the nonempty patterns the source
uses). -/
def pyReplace (s pat rep : String) : String :=
  ⟨replaceCore pat.data rep.data s.data.length s.data⟩

/-! ## The graph model (`build_graph_model`) -/

/-- The attribute dict attached by `G.add_node`: `label` and `shape` are
always given; `fillcolor`, `subgraph` and the cluster metadata
(`func_name`, `func_args`) only on some nodes. -/
structure NodeAttrs where
  label : String
  shape : String
  fillcolor : Option String := none
  subgraph : Option String := none
  func_name : Option String := none
  func_args : Option (List String) := none
deriving DecidableEq, Repr

/-- A node of the NetworkX digraph. -/
structure Node where
  id : String
  attrs : NodeAttrs
deriving DecidableEq, Repr

/-- The NetworkX digraph, with nodes in insertion order and edges in
insertion order.  (`G.add_node` with a fresh id appends; all ids produced by
`build_graph_model` are fresh at the time of each call — proved below — so
the append model coincides with NetworkX.  Each node has at most one
successor here, so `G.edges()` iteration order is insertion order too.) -/
structure Graph where
  nodes : List Node
  edges : List (String × String)
deriving DecidableEq, Repr

/-- `G.add_node(id, **attrs)` for a fresh id. -/
def addNode (G : Graph) (id : String) (a : NodeAttrs) : Graph :=
  { G with nodes := G.nodes ++ [⟨id, a⟩] }

/-- `G.add_edge(u, v)` for a fresh edge. -/
def addEdge (G : Graph) (u v : String) : Graph :=
  { G with edges := G.edges ++ [(u, v)] }

/-- The `for i, step in enumerate(flow)` loop of `build_graph_model`,
carrying the running index, the graph, and `last_node_id`. -/
def addFlowSteps (name subgraph_name : String) :
    Nat → List String → Graph → String → Graph × String
  | _, [], G, last => (G, last)
  | i, step :: rest, G, last =>
      let step_id := "func_" ++ name ++ "_step_" ++ toString i
      let G :=
        if pyStartsWith step "Decision" then
          addNode G step_id
            { label := pyReplace step "Decision: " "", shape := "diamond",
              fillcolor := some "khaki", subgraph := some subgraph_name }
        else
          addNode G step_id { label := step, shape := "box", subgraph := some subgraph_name }
      addFlowSteps name subgraph_name (i + 1) rest (addEdge G last step_id) step_id

/-- The body of the `for name, details in structure['functions'].items()`
loop: one Start node, the step chain (or the placeholder), one End node. -/
def buildFunc (G : Graph) (name : String) (details : FunctionFlow) : Graph :=
  let subgraph_name := "cluster_func_" ++ name
  let func_start_id := "func_" ++ name ++ "_start"
  let G := addNode G func_start_id
    { label := "Start", shape := "ellipse", fillcolor := some "palegreen",
      subgraph := some subgraph_name, func_name := some name,
      func_args := some details.args }
  let flow := details.flow
  let p :=
    if flow.isEmpty then
      let empty_node_id := "func_" ++ name ++ "_empty"
      (addEdge
        (addNode G empty_node_id
          { label := "No operations", shape := "plaintext",
            subgraph := some subgraph_name })
        func_start_id empty_node_id, empty_node_id)
    else
      addFlowSteps name subgraph_name 0 flow G func_start_id
  let func_end_id := "func_" ++ name ++ "_end"
  addEdge
    (addNode p.1 func_end_id
      { label := "End", shape := "ellipse", fillcolor := some "lightcoral",
        subgraph := some subgraph_name })
    p.2 func_end_id

/-- `build_graph_model`: one chained cluster per function, in dict order. -/
def build_graph_model (s : FuncDict) : Graph :=
  s.foldl (fun G p => buildFunc G p.1 p.2) ⟨[], []⟩

/-! ## The renderer (`create_logic_flowchart`) -/

/-- A rendered node: the attribute dict passed to `container.node(...)`
after stripping `subgraph`, `func_name`, `func_args`.  The informational
`"main"` node is emitted with a label only. -/
structure RNode where
  id : String
  label : String
  shape : Option String := none
  fillcolor : Option String := none
deriving DecidableEq, Repr

/-- One `Digraph(subgraph_name)` cluster with its label and the nodes placed
inside it, in placement order. -/
structure Cluster where
  name : String
  label : String
  cnodes : List RNode
deriving DecidableEq, Repr

/-- The rendered diagram: top-level nodes, clusters in creation order, and
the edge list. -/
structure Dot where
  topNodes : List RNode
  clusters : List Cluster
  edges : List (String × String)
deriving DecidableEq, Repr

/-- Stripping the non-visual attributes, as in the `node_attrs` dict
comprehension. -/
def toRNode (n : Node) : RNode :=
  { id := n.id, label := n.attrs.label, shape := some n.attrs.shape,
    fillcolor := n.attrs.fillcolor }

/-- `f"Function: {func_name}({', '.join(func_args)})"` with the `.get`
defaults. -/
def clusterLabel (a : NodeAttrs) : String :=
  "Function: " ++ a.func_name.getD "" ++ "(" ++
    String.intercalate ", " (a.func_args.getD []) ++ ")"

/-- One iteration of the `for node_id, attrs in graph.nodes(data=True)`
loop: create the cluster on first sight of its `subgraph` tag, then place
the node in its container (the cluster when one matches, else the top
level). -/
def placeNode (d : Dot) (n : Node) : Dot :=
  match n.attrs.subgraph with
  | none => { d with topNodes := d.topNodes ++ [toRNode n] }
  | some sg =>
      let clusters :=
        if !(d.clusters.any (fun c => c.name == sg)) && pyStartsWith sg "cluster_func" then
          d.clusters ++ [{ name := sg, label := clusterLabel n.attrs, cnodes := [] }]
        else d.clusters
      if clusters.any (fun c => c.name == sg) then
        { d with clusters := clusters.map (fun c =>
            if c.name == sg then { c with cnodes := c.cnodes ++ [toRNode n] } else c) }
      else
        { d with topNodes := d.topNodes ++ [toRNode n], clusters := clusters }

/-- The informational node emitted when the graph has no nodes. -/
def mainNode : RNode := { id := "main", label := "No functions found to map." }

/-- `create_logic_flowchart`: the degenerate-case node, then node placement
in insertion order, then the edge list. -/
def create_logic_flowchart (g : Graph) : Dot :=
  let d0 : Dot :=
    { topNodes := if g.nodes.isEmpty then [mainNode] else [],
      clusters := [], edges := [] }
  let d1 := g.nodes.foldl placeNode d0
  { d1 with edges := g.edges }

/-! ## Decimal rendering of natural numbers

The node ids embed a decimal index (`f"func_{name}_step_{i}"`).  To reason
about id collisions we relate `toString : Nat → String` to an explicit
big-endian digit list and prove it nonempty, all-digit, and injective. -/

/-- Big-endian decimal digit characters of `n`. -/
def natChars (n : Nat) : List Char :=
  if _h : n < 10 then [Nat.digitChar n]
  else natChars (n / 10) ++ [Nat.digitChar (n % 10)]
termination_by n
decreasing_by exact Nat.div_lt_self (by omega) (by omega)

theorem toDigitsCore_eq_natChars (f : Nat) :
    ∀ (n : Nat) (acc : List Char), n < f →
      Nat.toDigitsCore 10 f n acc = natChars n ++ acc := by
  induction f with
  | zero => intro n acc h; omega
  | succ f ih =>
    intro n acc h
    simp only [Nat.toDigitsCore]
    by_cases h10 : n / 10 = 0
    · have hn : n < 10 := (Nat.div_eq_zero_iff (by omega)).mp h10
      rw [if_pos h10, natChars, dif_pos hn, Nat.mod_eq_of_lt hn]
      rfl
    · have hn : ¬n < 10 := fun hlt => h10 (Nat.div_eq_of_lt hlt)
      have hdiv : n / 10 < n := Nat.div_lt_self (by omega) (by omega)
      rw [if_neg h10, ih (n / 10) _ (by omega)]
      conv_rhs => rw [natChars]
      rw [dif_neg hn, List.append_assoc]
      rfl

theorem toString_data (n : Nat) : (toString n).data = natChars n := by
  show (Nat.repr n).data = natChars n
  unfold Nat.repr Nat.toDigits
  rw [toDigitsCore_eq_natChars (n + 1) n [] (Nat.lt_succ_self n)]
  simp [List.asString]

theorem digitChar_isDigit : ∀ n < 10, (Nat.digitChar n).isDigit = true := by decide

/-- Numeric value of a decimal digit character. -/
def charVal (c : Char) : Nat := c.toNat - 48

theorem charVal_digitChar : ∀ n < 10, charVal (Nat.digitChar n) = n := by decide

theorem natChars_ne_nil (n : Nat) : natChars n ≠ [] := by
  rw [natChars]; split <;> simp

theorem natChars_digits (n : Nat) : ∀ c ∈ natChars n, c.isDigit = true := by
  induction n using Nat.strong_induction_on with
  | _ n ih =>
    rw [natChars]; split
    · next h =>
      intro c hc
      simp only [List.mem_singleton] at hc
      subst hc
      exact digitChar_isDigit n h
    · next h =>
      intro c hc
      rw [List.mem_append] at hc
      rcases hc with hc | hc
      · exact ih (n / 10) (Nat.div_lt_self (by omega) (by omega)) c hc
      · simp only [List.mem_singleton] at hc
        subst hc
        exact digitChar_isDigit _ (Nat.mod_lt n (by omega))

/-- Numeric value of a big-endian digit character list. -/
def digitsVal (l : List Char) : Nat := l.foldl (fun a c => 10 * a + charVal c) 0

theorem digitsVal_natChars (n : Nat) : digitsVal (natChars n) = n := by
  induction n using Nat.strong_induction_on with
  | _ n ih =>
    rw [natChars]; split
    · next h =>
      simp [digitsVal, List.foldl, charVal_digitChar n h]
    · next h =>
      rw [digitsVal, List.foldl_append]
      have h1 : List.foldl (fun a c => 10 * a + charVal c) 0 (natChars (n / 10)) = n / 10 :=
        ih (n / 10) (Nat.div_lt_self (by omega) (by omega))
      rw [h1]
      simp only [List.foldl, charVal_digitChar _ (Nat.mod_lt n (by omega))]
      omega

theorem natChars_inj {a b : Nat} (h : natChars a = natChars b) : a = b := by
  have ha := digitsVal_natChars a
  rw [h, digitsVal_natChars b] at ha
  omega

/-! ## Node identifiers

Every node id built by `build_graph_model` is `"func_" ++ name ++ tag` for
one of four tag shapes.  We prove the map `(name, tag) ↦ id` injective,
which is the heart of global id uniqueness. -/

/-- The positional role of a node inside its function's chain. -/
inductive NTag where
  | tstart
  | tempty
  | tstep (i : Nat)
  | tend
deriving DecidableEq, Repr

/-- The id suffix used for each role in `build_graph_model`. -/
def tagString : NTag → String
  | .tstart => "_start"
  | .tempty => "_empty"
  | .tstep i => "_step_" ++ toString i
  | .tend => "_end"

/-- The node id used for each role (`func_{name}_start` etc.). -/
def nodeId (name : String) (t : NTag) : String :=
  "func_" ++ name ++ tagString t

theorem revTag_tstart : (tagString .tstart).data.reverse = ['t', 'r', 'a', 't', 's', '_'] := by
  decide

theorem revTag_tempty : (tagString .tempty).data.reverse = ['y', 't', 'p', 'm', 'e', '_'] := by
  decide

theorem revTag_tend : (tagString .tend).data.reverse = ['d', 'n', 'e', '_'] := by
  decide

theorem revTag_tstep (i : Nat) :
    (tagString (.tstep i)).data.reverse =
      (natChars i).reverse ++ ['_', 'p', 'e', 't', 's', '_'] := by
  show (("_step_" : String) ++ toString i).data.reverse = _
  rw [String.data_append, toString_data, List.reverse_append]
  rfl

theorem natChars_rev_head (i : Nat) :
    ∃ c cs, (natChars i).reverse = c :: cs ∧ c.isDigit = true := by
  cases hrev : (natChars i).reverse with
  | nil =>
    exact absurd (List.reverse_eq_nil_iff.mp hrev) (natChars_ne_nil i)
  | cons c cs =>
    refine ⟨c, cs, rfl, ?_⟩
    have hc : c ∈ natChars i := by
      have : c ∈ (natChars i).reverse := by rw [hrev]; simp
      simpa using this
    exact natChars_digits i c hc

theorem head_clash {a b : Char} {l1 l2 r1 r2 : List Char} (hab : a ≠ b)
    (h : (a :: l1) ++ r1 = (b :: l2) ++ r2) : False := by
  have : a = b := by simpa using congrArg List.head? h
  exact hab this

theorem digit_block {l1 l2 r1 r2 : List Char}
    (h1 : ∀ c ∈ l1, c.isDigit = true) (h2 : ∀ c ∈ l2, c.isDigit = true)
    (h : l1 ++ '_' :: r1 = l2 ++ '_' :: r2) : l1 = l2 ∧ r1 = r2 := by
  induction l1 generalizing l2 with
  | nil =>
    cases l2 with
    | nil => simpa using h
    | cons b t2 =>
      exfalso
      have hb : '_' = b := by simpa using congrArg List.head? h
      have := h2 b (by simp)
      rw [← hb] at this
      exact absurd this (by decide)
  | cons a t1 ih =>
    cases l2 with
    | nil =>
      exfalso
      have ha : '_' = a := by simpa using congrArg List.head? h.symm
      have := h1 a (by simp)
      rw [← ha] at this
      exact absurd this (by decide)
    | cons b t2 =>
      simp only [List.cons_append, List.cons.injEq] at h
      obtain ⟨hab, htl⟩ := h
      obtain ⟨ht, hr⟩ := ih (fun c hc => h1 c (by simp [hc])) (fun c hc => h2 c (by simp [hc])) htl
      exact ⟨by rw [hab, ht], hr⟩

theorem cons_clash {x y : Char} {A B : List Char} (hxy : ¬x = y) (h : x :: A = y :: B) :
    False := by
  rw [List.cons.injEq] at h
  exact hxy h.1

theorem step_const_clash {c x : Char} {A B : List Char} (hcd : c.isDigit = true)
    (hx : x.isDigit = false) (h : c :: A = x :: B) : False := by
  rw [List.cons.injEq] at h
  rw [h.1] at hcd
  rw [hcd] at hx
  exact Bool.noConfusion hx

theorem nodeId_inj {n n' : String} {t t' : NTag} (h : nodeId n t = nodeId n' t') :
    n = n' ∧ t = t' := by
  have hd : n.data ++ (tagString t).data = n'.data ++ (tagString t').data := by
    have hdata := congrArg String.data h
    simp only [nodeId, String.data_append] at hdata
    rw [List.append_assoc, List.append_assoc] at hdata
    exact List.append_cancel_left hdata
  have hrev : (tagString t).data.reverse ++ n.data.reverse =
      (tagString t').data.reverse ++ n'.data.reverse := by
    have hx := congrArg List.reverse hd
    simpa [List.reverse_append] using hx
  have toName : n.data.reverse = n'.data.reverse → n = n' := by
    intro hx
    exact String.ext (by simpa using congrArg List.reverse hx)
  cases t with
  | tstart =>
    cases t' with
    | tstart =>
      rw [revTag_tstart] at hrev
      exact ⟨toName (List.append_cancel_left hrev), rfl⟩
    | tempty =>
      rw [revTag_tstart, revTag_tempty] at hrev
      simp only [List.cons_append] at hrev
      exact (cons_clash (by decide) hrev).elim
    | tstep i =>
      obtain ⟨c, cs, hc, hcd⟩ := natChars_rev_head i
      rw [revTag_tstart, revTag_tstep, hc] at hrev
      simp only [List.cons_append] at hrev
      exact (step_const_clash hcd (by decide) hrev.symm).elim
    | tend =>
      rw [revTag_tstart, revTag_tend] at hrev
      simp only [List.cons_append] at hrev
      exact (cons_clash (by decide) hrev).elim
  | tempty =>
    cases t' with
    | tstart =>
      rw [revTag_tempty, revTag_tstart] at hrev
      simp only [List.cons_append] at hrev
      exact (cons_clash (by decide) hrev).elim
    | tempty =>
      rw [revTag_tempty] at hrev
      exact ⟨toName (List.append_cancel_left hrev), rfl⟩
    | tstep i =>
      obtain ⟨c, cs, hc, hcd⟩ := natChars_rev_head i
      rw [revTag_tempty, revTag_tstep, hc] at hrev
      simp only [List.cons_append] at hrev
      exact (step_const_clash hcd (by decide) hrev.symm).elim
    | tend =>
      rw [revTag_tempty, revTag_tend] at hrev
      simp only [List.cons_append] at hrev
      exact (cons_clash (by decide) hrev).elim
  | tstep i =>
    cases t' with
    | tstart =>
      obtain ⟨c, cs, hc, hcd⟩ := natChars_rev_head i
      rw [revTag_tstep, revTag_tstart, hc] at hrev
      simp only [List.cons_append] at hrev
      exact (step_const_clash hcd (by decide) hrev).elim
    | tempty =>
      obtain ⟨c, cs, hc, hcd⟩ := natChars_rev_head i
      rw [revTag_tstep, revTag_tempty, hc] at hrev
      simp only [List.cons_append] at hrev
      exact (step_const_clash hcd (by decide) hrev).elim
    | tstep i' =>
      rw [revTag_tstep, revTag_tstep] at hrev
      rw [List.append_assoc, List.append_assoc] at hrev
      simp only [List.cons_append] at hrev
      obtain ⟨hdig, hrest⟩ := digit_block
        (fun ch hch => natChars_digits i ch (List.mem_reverse.mp hch))
        (fun ch hch => natChars_digits i' ch (List.mem_reverse.mp hch)) hrev
      have hij : i = i' := natChars_inj (List.reverse_injective hdig)
      simp only [List.cons.injEq, true_and] at hrest
      exact ⟨toName hrest, by rw [hij]⟩
    | tend =>
      obtain ⟨c, cs, hc, hcd⟩ := natChars_rev_head i
      rw [revTag_tstep, revTag_tend, hc] at hrev
      simp only [List.cons_append] at hrev
      exact (step_const_clash hcd (by decide) hrev).elim
  | tend =>
    cases t' with
    | tstart =>
      rw [revTag_tend, revTag_tstart] at hrev
      simp only [List.cons_append] at hrev
      exact (cons_clash (by decide) hrev).elim
    | tempty =>
      rw [revTag_tend, revTag_tempty] at hrev
      simp only [List.cons_append] at hrev
      exact (cons_clash (by decide) hrev).elim
    | tstep i =>
      obtain ⟨c, cs, hc, hcd⟩ := natChars_rev_head i
      rw [revTag_tend, revTag_tstep, hc] at hrev
      simp only [List.cons_append] at hrev
      exact (step_const_clash hcd (by decide) hrev.symm).elim
    | tend =>
      rw [revTag_tend] at hrev
      exact ⟨toName (List.append_cancel_left hrev), rfl⟩

/-! ## Explicit shape of the built graph

`buildFunc` is a fold; these definitions give the same nodes and edges as
explicit lists, with a bridging lemma, so that the cluster structure can be
reasoned about directly. -/

/-- The cluster tag of one function (`subgraph_name`). -/
def clusterOf (name : String) : String := "cluster_func_" ++ name

/-- The Start node of a function's cluster. -/
def startNode (name : String) (args : List String) : Node :=
  ⟨nodeId name .tstart,
   { label := "Start", shape := "ellipse", fillcolor := some "palegreen",
     subgraph := some (clusterOf name), func_name := some name,
     func_args := some args }⟩

/-- The node built for flow entry `step` at position `i`. -/
def stepNode (name : String) (i : Nat) (step : String) : Node :=
  ⟨nodeId name (.tstep i),
   if pyStartsWith step "Decision" then
     { label := pyReplace step "Decision: " "", shape := "diamond",
       fillcolor := some "khaki", subgraph := some (clusterOf name) }
   else
     { label := step, shape := "box", subgraph := some (clusterOf name) }⟩

/-- The placeholder node for an empty flow. -/
def emptyNode (name : String) : Node :=
  ⟨nodeId name .tempty,
   { label := "No operations", shape := "plaintext",
     subgraph := some (clusterOf name) }⟩

/-- The End node of a function's cluster. -/
def endNode (name : String) : Node :=
  ⟨nodeId name .tend,
   { label := "End", shape := "ellipse", fillcolor := some "lightcoral",
     subgraph := some (clusterOf name) }⟩

/-- The step nodes for the flow entries, indices counting from `i`. -/
def stepNodesFrom (name : String) (i : Nat) : List String → List Node
  | [] => []
  | s :: rest => stepNode name i s :: stepNodesFrom name (i + 1) rest

/-- The nodes strictly between Start and End. -/
def midNodes (name : String) (fl : List String) : List Node :=
  if fl.isEmpty then [emptyNode name] else stepNodesFrom name 0 fl

/-- All nodes of one function's cluster, in insertion order. -/
def nodesOfFunc (name : String) (d : FunctionFlow) : List Node :=
  startNode name d.args :: (midNodes name d.flow ++ [endNode name])

/-- The node ids of one function's chain, in order. -/
def chainIds (name : String) (d : FunctionFlow) : List String :=
  (nodesOfFunc name d).map (·.id)

/-- Consecutive pairs of a list: the edges of a chain. -/
def chainPairs : List String → List (String × String)
  | [] => []
  | [_] => []
  | a :: b :: rest => (a, b) :: chainPairs (b :: rest)

/-- All edges of one function's cluster, in insertion order. -/
def edgesOfFunc (name : String) (d : FunctionFlow) : List (String × String) :=
  chainPairs (chainIds name d)

theorem stepId_eq (name : String) (i : Nat) :
    "func_" ++ name ++ "_step_" ++ toString i = nodeId name (.tstep i) := by
  show _ = "func_" ++ name ++ ("_step_" ++ toString i)
  rw [String.append_assoc]

theorem addFlowSteps_eq (name : String) :
    ∀ (steps : List String) (i : Nat) (G : Graph) (last : String),
      addFlowSteps name (clusterOf name) i steps G last =
        ({ nodes := G.nodes ++ stepNodesFrom name i steps,
           edges := G.edges ++
             chainPairs (last :: (stepNodesFrom name i steps).map (·.id)) },
         ((stepNodesFrom name i steps).map (·.id)).getLastD last) := by
  intro steps
  induction steps with
  | nil =>
    intro i G last
    simp [addFlowSteps, stepNodesFrom, chainPairs]
  | cons s rest ih =>
    intro i G last
    simp only [addFlowSteps]
    rw [ih, stepId_eq]
    simp only [stepNodesFrom, List.map_cons, List.getLastD_cons]
    by_cases hc : pyStartsWith s "Decision" <;>
      simp [hc, addNode, addEdge, stepNode, chainPairs]

theorem chainPairs_snoc : ∀ (l : List String) (a x : String),
    chainPairs (a :: (l ++ [x])) = chainPairs (a :: l) ++ [(l.getLastD a, x)] := by
  intro l
  induction l with
  | nil => intro a x; simp [chainPairs]
  | cons b r ih =>
    intro a x
    show chainPairs (a :: b :: (r ++ [x])) =
      chainPairs (a :: b :: r) ++ [((b :: r).getLastD a, x)]
    rw [chainPairs, ih b x, List.getLastD_cons, chainPairs]
    simp

theorem buildFunc_eq (G : Graph) (name : String) (d : FunctionFlow) :
    buildFunc G name d =
      { nodes := G.nodes ++ nodesOfFunc name d,
        edges := G.edges ++ edgesOfFunc name d } := by
  by_cases hfl : d.flow.isEmpty
  · have hnil : d.flow = [] := List.isEmpty_iff.mp hfl
    simp [buildFunc, hnil, addNode, addEdge, nodesOfFunc, midNodes, edgesOfFunc,
      chainIds, chainPairs, startNode, emptyNode, endNode, nodeId, tagString,
      clusterOf]
  · simp only [buildFunc, if_neg hfl]
    rw [show ("cluster_func_" ++ name : String) = clusterOf name from rfl,
      addFlowSteps_eq]
    simp only [nodesOfFunc, midNodes, if_neg hfl, edgesOfFunc, chainIds,
      List.map_cons, List.map_append, List.map_nil, addNode, addEdge]
    rw [chainPairs_snoc]
    simp [startNode, endNode, nodeId, tagString, clusterOf, List.append_assoc]

theorem build_graph_model_fold (s : FuncDict) :
    ∀ G : Graph,
      s.foldl (fun G p => buildFunc G p.1 p.2) G =
        { nodes := G.nodes ++ s.flatMap (fun p => nodesOfFunc p.1 p.2),
          edges := G.edges ++ s.flatMap (fun p => edgesOfFunc p.1 p.2) } := by
  induction s with
  | nil => intro G; simp
  | cons p rest ih =>
    intro G
    rw [List.foldl_cons, ih, buildFunc_eq]
    simp [List.append_assoc]

theorem build_graph_model_eq (s : FuncDict) :
    build_graph_model s =
      { nodes := s.flatMap (fun p => nodesOfFunc p.1 p.2),
        edges := s.flatMap (fun p => edgesOfFunc p.1 p.2) } := by
  rw [build_graph_model, build_graph_model_fold]
  rfl

/-! ## Global id uniqueness -/

/-- The keys of the extracted dict are distinct (true of every Python dict;
proved below for every successful run of the analyzer). -/
def KeysNodup (s : FuncDict) : Prop := (s.map Prod.fst).Nodup

theorem clusterOf_inj {a b : String} (h : clusterOf a = clusterOf b) : a = b := by
  have hd := congrArg String.data h
  simp only [clusterOf, String.data_append] at hd
  exact String.ext (List.append_cancel_left hd)

theorem stepNodesFrom_subgraph {name : String} :
    ∀ {fl : List String} {i : Nat} {n : Node}, n ∈ stepNodesFrom name i fl →
      n.attrs.subgraph = some (clusterOf name) := by
  intro fl
  induction fl with
  | nil => intro i n hn; simp [stepNodesFrom] at hn
  | cons s rest ih =>
    intro i n hn
    rw [stepNodesFrom, List.mem_cons] at hn
    rcases hn with hn | hn
    · subst hn
      rw [stepNode]
      by_cases hc : pyStartsWith s "Decision" <;> simp [hc]
    · exact ih hn

theorem nodesOfFunc_subgraph {name : String} {d : FunctionFlow} :
    ∀ {n : Node}, n ∈ nodesOfFunc name d → n.attrs.subgraph = some (clusterOf name) := by
  intro n hn
  rw [nodesOfFunc, List.mem_cons, List.mem_append] at hn
  rcases hn with hn | hn | hn
  · subst hn; rfl
  · rw [midNodes] at hn
    by_cases hfl : d.flow.isEmpty
    · rw [if_pos hfl, List.mem_singleton] at hn
      subst hn; rfl
    · rw [if_neg hfl] at hn
      exact stepNodesFrom_subgraph hn
  · rw [List.mem_singleton] at hn
    subst hn; rfl

theorem mem_stepIds {name : String} :
    ∀ {fl : List String} {i : Nat} {x : String},
      x ∈ (stepNodesFrom name i fl).map (·.id) →
        ∃ j, i ≤ j ∧ x = nodeId name (.tstep j) := by
  intro fl
  induction fl with
  | nil => intro i x hx; simp [stepNodesFrom] at hx
  | cons s rest ih =>
    intro i x hx
    rw [stepNodesFrom, List.map_cons, List.mem_cons] at hx
    rcases hx with hx | hx
    · exact ⟨i, Nat.le_refl i, hx⟩
    · obtain ⟨j, hij, hj⟩ := ih hx
      exact ⟨j, by omega, hj⟩

theorem chainIds_shape {name : String} {d : FunctionFlow} {x : String}
    (hx : x ∈ chainIds name d) : ∃ t, x = nodeId name t := by
  rw [chainIds, nodesOfFunc, List.map_cons, List.mem_cons, List.map_append,
    List.mem_append] at hx
  rcases hx with hx | hx | hx
  · exact ⟨.tstart, hx⟩
  · rw [midNodes] at hx
    by_cases hfl : d.flow.isEmpty
    · rw [if_pos hfl] at hx
      simp only [List.map_cons, List.map_nil, List.mem_singleton] at hx
      exact ⟨.tempty, hx⟩
    · rw [if_neg hfl] at hx
      obtain ⟨j, _, hj⟩ := mem_stepIds hx
      exact ⟨.tstep j, hj⟩
  · simp only [List.map_cons, List.map_nil, List.mem_singleton] at hx
    exact ⟨.tend, hx⟩

theorem stepIds_nodup {name : String} :
    ∀ (fl : List String) (i : Nat), ((stepNodesFrom name i fl).map (·.id)).Nodup := by
  intro fl
  induction fl with
  | nil => intro i; simp [stepNodesFrom]
  | cons s rest ih =>
    intro i
    rw [stepNodesFrom, List.map_cons, List.nodup_cons]
    refine ⟨?_, ih (i + 1)⟩
    intro hmem
    obtain ⟨j, hij, hj⟩ := mem_stepIds hmem
    have : NTag.tstep i = NTag.tstep j := (nodeId_inj hj).2
    rw [NTag.tstep.injEq] at this
    omega

theorem chainIds_nodup (name : String) (d : FunctionFlow) : (chainIds name d).Nodup := by
  have hmid : ((midNodes name d.flow).map (·.id)).Nodup := by
    rw [midNodes]
    by_cases hfl : d.flow.isEmpty
    · rw [if_pos hfl]; simp
    · rw [if_neg hfl]; exact stepIds_nodup d.flow 0
  have hmidend : ∀ x ∈ (midNodes name d.flow).map (·.id), x ≠ nodeId name .tend := by
    intro x hx
    rw [midNodes] at hx
    by_cases hfl : d.flow.isEmpty
    · rw [if_pos hfl] at hx
      simp only [List.map_cons, List.map_nil, List.mem_singleton] at hx
      subst hx
      intro hcontra
      exact absurd (nodeId_inj hcontra).2 (by simp)
    · rw [if_neg hfl] at hx
      obtain ⟨j, _, hj⟩ := mem_stepIds hx
      subst hj
      intro hcontra
      exact absurd (nodeId_inj hcontra).2 (by simp)
  rw [chainIds, nodesOfFunc, List.map_cons, List.map_append, List.nodup_cons]
  constructor
  · intro hmem
    rw [List.mem_append] at hmem
    rcases hmem with hmem | hmem
    · rw [midNodes] at hmem
      by_cases hfl : d.flow.isEmpty
      · rw [if_pos hfl] at hmem
        simp only [List.map_cons, List.map_nil, List.mem_singleton] at hmem
        exact absurd (nodeId_inj hmem).2 (by simp)
      · rw [if_neg hfl] at hmem
        obtain ⟨j, _, hj⟩ := mem_stepIds hmem
        exact absurd (nodeId_inj hj).2 (by simp)
    · simp only [List.map_cons, List.map_nil, List.mem_singleton] at hmem
      exact absurd (nodeId_inj hmem).2 (by simp)
  · rw [List.nodup_append]
    refine ⟨hmid, by simp, ?_⟩
    intro x hx hx2
    simp only [List.map_cons, List.map_nil, List.mem_singleton] at hx2
    exact hmidend x hx hx2

theorem chainIds_disjoint {name name' : String} (hnn : name ≠ name')
    {d d' : FunctionFlow} : ∀ x ∈ chainIds name d, x ∉ chainIds name' d' := by
  intro x hx hx'
  obtain ⟨t, ht⟩ := chainIds_shape hx
  obtain ⟨t', ht'⟩ := chainIds_shape hx'
  subst ht
  exact hnn (nodeId_inj ht').1

theorem map_id_nodesOfFunc (name : String) (d : FunctionFlow) :
    (nodesOfFunc name d).map (·.id) = chainIds name d := rfl

theorem build_ids_nodup {s : FuncDict} (hs : KeysNodup s) :
    ((build_graph_model s).nodes.map (·.id)).Nodup := by
  rw [build_graph_model_eq]
  show ((s.flatMap fun p => nodesOfFunc p.1 p.2).map (·.id)).Nodup
  rw [List.map_flatMap]
  rw [List.nodup_flatMap]
  constructor
  · intro p _
    rw [map_id_nodesOfFunc]
    exact chainIds_nodup p.1 p.2
  · have hp : s.Pairwise (fun p q => p.1 ≠ q.1) := by
      have := hs
      rw [KeysNodup, List.Nodup, List.pairwise_map] at this
      exact this
    refine hp.imp ?_
    intro p q hpq
    rw [Function.onFun, map_id_nodesOfFunc, map_id_nodesOfFunc]
    intro x hx hx'
    exact chainIds_disjoint hpq x hx hx'

/-! ## The restriction of the built graph to one cluster -/

/-- The nodes of the graph carrying a given cluster tag. -/
def clusterNodes (G : Graph) (c : String) : List Node :=
  G.nodes.filter (fun n => n.attrs.subgraph == some c)

/-- The edges of the graph both of whose endpoints lie in a given cluster. -/
def clusterEdges (G : Graph) (c : String) : List (String × String) :=
  G.edges.filter (fun e =>
    (clusterNodes G c).any (fun n => n.id == e.1) &&
    (clusterNodes G c).any (fun n => n.id == e.2))

theorem filter_nodesOfFunc_self (name : String) (d : FunctionFlow) :
    (nodesOfFunc name d).filter
      (fun n => n.attrs.subgraph == some (clusterOf name)) = nodesOfFunc name d := by
  rw [List.filter_eq_self]
  intro n hn
  rw [nodesOfFunc_subgraph hn]
  simp

theorem filter_nodesOfFunc_other {name name' : String} (h : ¬name' = name)
    (d' : FunctionFlow) :
    (nodesOfFunc name' d').filter
      (fun n => n.attrs.subgraph == some (clusterOf name)) = [] := by
  rw [List.filter_eq_nil_iff]
  intro n hn
  rw [nodesOfFunc_subgraph hn]
  simp only [beq_iff_eq, Option.some.injEq]
  intro hc
  exact h (clusterOf_inj hc)

theorem flatMap_filter_other {name : String} :
    ∀ {rest : FuncDict}, (∀ q ∈ rest, ¬q.1 = name) →
      (rest.flatMap fun p => nodesOfFunc p.1 p.2).filter
        (fun n => n.attrs.subgraph == some (clusterOf name)) = [] := by
  intro rest
  induction rest with
  | nil => intro _; rfl
  | cons q rest ih =>
    intro h
    rw [List.flatMap_cons, List.filter_append,
      filter_nodesOfFunc_other (h q (List.mem_cons_self q rest)),
      ih (fun r hr => h r (List.mem_cons_of_mem q hr))]
    rfl

theorem keysNodup_cons {p : String × FunctionFlow} {rest : FuncDict}
    (hs : KeysNodup (p :: rest)) :
    (∀ q ∈ rest, ¬q.1 = p.1) ∧ KeysNodup rest := by
  rw [KeysNodup, List.map_cons, List.nodup_cons] at hs
  refine ⟨?_, hs.2⟩
  intro q hq hqp
  exact hs.1 (hqp ▸ List.mem_map_of_mem Prod.fst hq)

theorem clusterNodes_build {s : FuncDict} (hs : KeysNodup s) {name : String}
    {d : FunctionFlow} (hmem : (name, d) ∈ s) :
    clusterNodes (build_graph_model s) (clusterOf name) = nodesOfFunc name d := by
  rw [clusterNodes, build_graph_model_eq]
  show (s.flatMap fun p => nodesOfFunc p.1 p.2).filter _ = _
  induction s with
  | nil => exact absurd hmem (List.not_mem_nil _)
  | cons p rest ih =>
    obtain ⟨hfresh, hrest⟩ := keysNodup_cons hs
    rw [List.flatMap_cons, List.filter_append]
    rw [List.mem_cons] at hmem
    rcases hmem with hmem | hmem
    · subst hmem
      rw [filter_nodesOfFunc_self, flatMap_filter_other hfresh, List.append_nil]
    · have hp1 : ¬p.1 = name := by
        intro hp1
        exact hfresh (name, d) hmem hp1.symm
      rw [filter_nodesOfFunc_other hp1, List.nil_append]
      exact ih hrest hmem

theorem chainPairs_mem :
    ∀ (l : List String) (e : String × String), e ∈ chainPairs l → e.1 ∈ l ∧ e.2 ∈ l
  | [], e, h => by simp [chainPairs] at h
  | [_], e, h => by simp [chainPairs] at h
  | a :: b :: rest, e, h => by
      rw [chainPairs, List.mem_cons] at h
      rcases h with h | h
      · subst h
        exact ⟨List.mem_cons_self _ _, List.mem_cons_of_mem a (List.mem_cons_self _ _)⟩
      · obtain ⟨h1, h2⟩ := chainPairs_mem (b :: rest) e h
        exact ⟨List.mem_cons_of_mem a h1, List.mem_cons_of_mem a h2⟩

theorem clusterEdges_build {s : FuncDict} (hs : KeysNodup s) {name : String}
    {d : FunctionFlow} (hmem : (name, d) ∈ s) :
    clusterEdges (build_graph_model s) (clusterOf name) = edgesOfFunc name d := by
  have hnodes := clusterNodes_build hs hmem
  rw [clusterEdges, hnodes]
  clear hnodes
  have hin : ∀ x, ((nodesOfFunc name d).any fun n => n.id == x) = true ↔
      x ∈ chainIds name d := by
    intro x
    rw [List.any_eq_true]
    constructor
    · rintro ⟨n, hn, hnx⟩
      rw [beq_iff_eq] at hnx
      exact hnx ▸ List.mem_map_of_mem _ hn
    · intro hx
      rw [chainIds] at hx
      obtain ⟨n, hn, hnx⟩ := List.mem_map.mp hx
      exact ⟨n, hn, by simp [hnx]⟩
  rw [build_graph_model_eq]
  show List.filter _ (s.flatMap fun p => edgesOfFunc p.1 p.2) = _
  -- keep only this function's edges
  induction s with
  | nil => exact absurd hmem (List.not_mem_nil _)
  | cons p rest ih =>
    obtain ⟨hfresh, hrest⟩ := keysNodup_cons hs
    rw [List.flatMap_cons, List.filter_append]
    rw [List.mem_cons] at hmem
    rcases hmem with hmem | hmem
    · subst hmem
      have hself : (edgesOfFunc name d).filter (fun e =>
          ((nodesOfFunc name d).any fun n => n.id == e.1) &&
          ((nodesOfFunc name d).any fun n => n.id == e.2)) = edgesOfFunc name d := by
        rw [List.filter_eq_self]
        intro e he
        obtain ⟨h1, h2⟩ := chainPairs_mem _ e he
        rw [Bool.and_eq_true, hin, hin]
        exact ⟨h1, h2⟩
      have hothers : (rest.flatMap fun p => edgesOfFunc p.1 p.2).filter (fun e =>
          ((nodesOfFunc name d).any fun n => n.id == e.1) &&
          ((nodesOfFunc name d).any fun n => n.id == e.2)) = [] := by
        rw [List.filter_eq_nil_iff]
        intro e he
        obtain ⟨q, hq, heq⟩ := List.mem_flatMap.mp he
        obtain ⟨h1, _⟩ := chainPairs_mem _ e heq
        rw [Bool.and_eq_true, hin, hin]
        rintro ⟨hc1, _⟩
        exact chainIds_disjoint (fun hne => hfresh q hq hne.symm) e.1 hc1 h1
      rw [hself, hothers, List.append_nil]
    · have hp1 : ¬p.1 = name := by
        intro hp1
        exact hfresh (name, d) hmem hp1.symm
      have hpfilter : (edgesOfFunc p.1 p.2).filter (fun e =>
          ((nodesOfFunc name d).any fun n => n.id == e.1) &&
          ((nodesOfFunc name d).any fun n => n.id == e.2)) = [] := by
        rw [List.filter_eq_nil_iff]
        intro e he
        obtain ⟨h1, _⟩ := chainPairs_mem _ e he
        rw [Bool.and_eq_true, hin, hin]
        rintro ⟨hc1, _⟩
        exact chainIds_disjoint (fun hne => hp1 hne.symm) e.1 hc1 h1
      rw [hpfilter, List.nil_append]
      exact ih hrest hmem

/-! ## Degrees along a chain -/

theorem countP_snd_chainPairs :
    ∀ (m : List String) (a : String), (a :: m).Nodup → ∀ x,
      (chainPairs (a :: m)).countP (fun e => e.2 == x) = if x ∈ m then 1 else 0 := by
  intro m
  induction m with
  | nil => intro a _ x; simp [chainPairs]
  | cons b r ih =>
    intro a hnd x
    rw [chainPairs, List.countP_cons, ih b hnd.of_cons x]
    by_cases hxb : x = b
    · subst hxb
      have hxr : x ∉ r := (List.nodup_cons.mp hnd.of_cons).1
      simp [hxr]
    · simp [List.mem_cons, hxb, Ne.symm hxb]

theorem countP_fst_chainPairs :
    ∀ (m : List String) (a : String), (a :: m).Nodup → ∀ x,
      (chainPairs (a :: m)).countP (fun e => e.1 == x) =
        if x ∈ (a :: m).dropLast then 1 else 0 := by
  intro m
  induction m with
  | nil => intro a _ x; simp [chainPairs]
  | cons b r ih =>
    intro a hnd x
    rw [chainPairs, List.countP_cons, ih b hnd.of_cons x]
    by_cases hxa : x = a
    · subst hxa
      have hxm : x ∉ b :: r := (List.nodup_cons.mp hnd).1
      have hxdl : x ∉ (b :: r).dropLast := fun hc => hxm (List.dropLast_subset _ hc)
      simp [hxdl, hxm]
    · have hdl : (a :: b :: r).dropLast = a :: (b :: r).dropLast := by simp
      rw [hdl]
      simp [List.mem_cons, hxa, Ne.symm hxa]

/-! ## Rendering a built graph -/

/-- The cluster the renderer produces for one function. -/
def clusterForFunc (name : String) (d : FunctionFlow) : Cluster :=
  { name := clusterOf name,
    label := "Function: " ++ name ++ "(" ++ String.intercalate ", " d.args ++ ")",
    cnodes := (nodesOfFunc name d).map toRNode }

theorem pyStartsWith_clusterOf (name : String) :
    pyStartsWith (clusterOf name) "cluster_func" = true := by
  rw [pyStartsWith, List.isPrefixOf_iff_prefix]
  show ("cluster_func" : String).data <+: ("cluster_func_" ++ name).data
  rw [String.data_append]
  have hsplit : ("cluster_func_" : String).data = ("cluster_func" : String).data ++ ['_'] := by
    decide
  rw [hsplit, List.append_assoc]
  exact List.prefix_append _ _

theorem placeNode_existing {sg : String} {n : Node} (hn : n.attrs.subgraph = some sg)
    (tops : List RNode) (C : List Cluster) (lbl : String) (done : List RNode)
    (es : List (String × String)) (hC : ∀ c ∈ C, ¬c.name = sg) :
    placeNode ⟨tops, C ++ [⟨sg, lbl, done⟩], es⟩ n =
      ⟨tops, C ++ [⟨sg, lbl, done ++ [toRNode n]⟩], es⟩ := by
  have hany : ((C ++ [(⟨sg, lbl, done⟩ : Cluster)]).any fun c => c.name == sg) = true := by
    rw [List.any_append]
    simp
  simp only [placeNode, hn]
  rw [hany]
  simp only [Bool.not_true, Bool.false_and, Bool.false_eq_true, if_false, if_true]
  rw [List.map_append]
  have hCmap : C.map (fun c => if c.name == sg then
      { c with cnodes := c.cnodes ++ [toRNode n] } else c) = C := by
    conv_rhs => rw [← List.map_id C]
    apply List.map_congr_left
    intro c hc
    have hcf : (c.name == sg) = false := beq_eq_false_iff_ne.mpr (hC c hc)
    simp [hcf]
  rw [hCmap]
  simp

theorem placeNode_fresh {sg : String} {n : Node} (hn : n.attrs.subgraph = some sg)
    (hsw : pyStartsWith sg "cluster_func" = true) (tops : List RNode)
    (C : List Cluster) (es : List (String × String)) (hC : ∀ c ∈ C, ¬c.name = sg) :
    placeNode ⟨tops, C, es⟩ n =
      ⟨tops, C ++ [⟨sg, clusterLabel n.attrs, [toRNode n]⟩], es⟩ := by
  have hanyC : (C.any fun c => c.name == sg) = false := by
    rw [List.any_eq_false]
    intro c hc h
    exact hC c hc (beq_iff_eq.mp h)
  have hany2 : ((C ++ [(⟨sg, clusterLabel n.attrs, []⟩ : Cluster)]).any
      fun c => c.name == sg) = true := by
    rw [List.any_append]
    simp
  simp only [placeNode, hn]
  rw [hanyC]
  simp only [Bool.not_false, Bool.true_and, hsw, if_true]
  rw [hany2]
  simp only [if_true, List.map_append]
  have hCmap : C.map (fun c => if c.name == sg then
      { c with cnodes := c.cnodes ++ [toRNode n] } else c) = C := by
    conv_rhs => rw [← List.map_id C]
    apply List.map_congr_left
    intro c hc
    have hcf : (c.name == sg) = false := beq_eq_false_iff_ne.mpr (hC c hc)
    simp [hcf]
  rw [hCmap]
  simp

theorem fold_place_into {sg : String} :
    ∀ (ns : List Node) (tops : List RNode) (C : List Cluster) (lbl : String)
      (done : List RNode) (es : List (String × String)),
      (∀ n ∈ ns, n.attrs.subgraph = some sg) →
      (∀ c ∈ C, ¬c.name = sg) →
      ns.foldl placeNode ⟨tops, C ++ [⟨sg, lbl, done⟩], es⟩ =
        ⟨tops, C ++ [⟨sg, lbl, done ++ ns.map toRNode⟩], es⟩ := by
  intro ns
  induction ns with
  | nil => intro tops C lbl done es _ _; simp
  | cons n rest ih =>
    intro tops C lbl done es hsub hC
    rw [List.foldl_cons,
      placeNode_existing (hsub n (List.mem_cons_self n rest)) tops C lbl done es hC,
      ih tops C lbl (done ++ [toRNode n]) es
        (fun m hm => hsub m (List.mem_cons_of_mem n hm)) hC]
    simp [List.append_assoc]

theorem fold_place_func {name : String} {d : FunctionFlow} :
    ∀ (tops : List RNode) (C : List Cluster) (es : List (String × String)),
      (∀ c ∈ C, ¬c.name = clusterOf name) →
      (nodesOfFunc name d).foldl placeNode ⟨tops, C, es⟩ =
        ⟨tops, C ++ [clusterForFunc name d], es⟩ := by
  intro tops C es hC
  rw [nodesOfFunc, List.foldl_cons,
    placeNode_fresh (n := startNode name d.args) rfl (pyStartsWith_clusterOf name)
      tops C es hC,
    fold_place_into (midNodes name d.flow ++ [endNode name]) tops C _ _ es ?hsub hC]
  · rw [clusterForFunc]
    have hlbl : clusterLabel (startNode name d.args).attrs =
        "Function: " ++ name ++ "(" ++ String.intercalate ", " d.args ++ ")" := rfl
    rw [hlbl]
    simp [nodesOfFunc]
  case hsub =>
    intro m hm
    have hmm : m ∈ nodesOfFunc name d := by
      rw [nodesOfFunc]
      exact List.mem_cons_of_mem _ hm
    exact nodesOfFunc_subgraph hmm

theorem fold_place_all :
    ∀ (s : FuncDict) (tops : List RNode) (C : List Cluster) (es : List (String × String)),
      KeysNodup s →
      (∀ c ∈ C, ∀ p ∈ s, ¬c.name = clusterOf p.1) →
      (s.flatMap fun p => nodesOfFunc p.1 p.2).foldl placeNode ⟨tops, C, es⟩ =
        ⟨tops, C ++ s.map (fun p => clusterForFunc p.1 p.2), es⟩ := by
  intro s
  induction s with
  | nil => intro tops C es _ _; simp
  | cons p rest ih =>
    intro tops C es hs hC
    obtain ⟨hfresh, hrest⟩ := keysNodup_cons hs
    rw [List.flatMap_cons, List.foldl_append,
      fold_place_func tops C es (fun c hc => hC c hc p (List.mem_cons_self p rest)),
      ih tops (C ++ [clusterForFunc p.1 p.2]) es hrest ?hcond]
    · simp
    case hcond =>
      intro c hc q hq
      rw [List.mem_append] at hc
      rcases hc with hc | hc
      · exact hC c hc q (List.mem_cons_of_mem p hq)
      · rw [List.mem_singleton] at hc
        subst hc
        intro hcc
        exact hfresh q hq (clusterOf_inj hcc).symm

theorem render_build {s : FuncDict} (hs : KeysNodup s) :
    create_logic_flowchart (build_graph_model s) =
      { topNodes := if s.isEmpty then [mainNode] else [],
        clusters := s.map fun p => clusterForFunc p.1 p.2,
        edges := s.flatMap fun p => edgesOfFunc p.1 p.2 } := by
  cases s with
  | nil => rfl
  | cons p rest =>
    rw [build_graph_model_eq]
    have hne : (((p :: rest).flatMap fun q => nodesOfFunc q.1 q.2)).isEmpty = false := by
      rw [List.flatMap_cons, nodesOfFunc]
      rfl
    simp only [create_logic_flowchart, hne, Bool.false_eq_true, if_false]
    rw [fold_place_all (p :: rest) [] [] [] hs (by intro c hc; simp at hc)]
    rw [List.nil_append]
    simp

/-! ## The traversal as a fold over the visited function definitions -/

mutual
/-- The function definitions `visit_FunctionDef` fires on, in visit order
(pre-order; an async def is itself skipped, but its body is visited). -/
def defsOfStmt : Stmt → List (String × List String × Stmts)
  | .ifStmt _ body orelse => defsOfStmts body ++ defsOfStmts orelse
  | .forStmt _ _ body orelse => defsOfStmts body ++ defsOfStmts orelse
  | .whileStmt _ body orelse => defsOfStmts body ++ defsOfStmts orelse
  | .returnStmt _ => []
  | .functionDef name args body => (name, args, body) :: defsOfStmts body
  | .asyncFunctionDef _ _ body => defsOfStmts body
  | .other children => defsOfStmts children
/-- `defsOfStmt` over a statement list. -/
def defsOfStmts : Stmts → List (String × List String × Stmts)
  | .nil => []
  | .cons s rest => defsOfStmt s ++ defsOfStmts rest
end

/-- Folding the dict updates over a list of visited definitions. -/
def foldDefs (st : FuncDict) : List (String × List String × Stmts) → Option FuncDict
  | [] => some st
  | (n, a, b) :: rest =>
      match bodyFlow [] b with
      | none => none
      | some fl => foldDefs (dictInsert st n ⟨a, fl⟩) rest

theorem foldDefs_append :
    ∀ (l1 l2 : List (String × List String × Stmts)) (st : FuncDict),
      foldDefs st (l1 ++ l2) =
        match foldDefs st l1 with
        | none => none
        | some st' => foldDefs st' l2 := by
  intro l1
  induction l1 with
  | nil => intro l2 st; rfl
  | cons q rest ih =>
    intro l2 st
    obtain ⟨n, a, b⟩ := q
    rw [List.cons_append, foldDefs, foldDefs]
    cases bodyFlow [] b with
    | none => rfl
    | some fl => exact ih l2 (dictInsert st n ⟨a, fl⟩)

mutual
theorem visitStmt_eq_foldDefs :
    ∀ (s : Stmt) (st : FuncDict), visitStmt st s = foldDefs st (defsOfStmt s)
  | .ifStmt t body orelse, st => by
      rw [visitStmt, defsOfStmt, foldDefs_append, visitStmts_eq_foldDefs body st]
      cases foldDefs st (defsOfStmts body) with
      | none => rfl
      | some st' => exact visitStmts_eq_foldDefs orelse st'
  | .forStmt t it body orelse, st => by
      rw [visitStmt, defsOfStmt, foldDefs_append, visitStmts_eq_foldDefs body st]
      cases foldDefs st (defsOfStmts body) with
      | none => rfl
      | some st' => exact visitStmts_eq_foldDefs orelse st'
  | .whileStmt t body orelse, st => by
      rw [visitStmt, defsOfStmt, foldDefs_append, visitStmts_eq_foldDefs body st]
      cases foldDefs st (defsOfStmts body) with
      | none => rfl
      | some st' => exact visitStmts_eq_foldDefs orelse st'
  | .returnStmt v, st => rfl
  | .functionDef name args body, st => by
      rw [visitStmt, defsOfStmt, foldDefs]
      cases bodyFlow [] body with
      | none => rfl
      | some fl => exact visitStmts_eq_foldDefs body (dictInsert st name ⟨args, fl⟩)
  | .asyncFunctionDef name args body, st => visitStmts_eq_foldDefs body st
  | .other children, st => visitStmts_eq_foldDefs children st
theorem visitStmts_eq_foldDefs :
    ∀ (l : Stmts) (st : FuncDict), visitStmts st l = foldDefs st (defsOfStmts l)
  | .nil, st => rfl
  | .cons s rest, st => by
      rw [visitStmts, defsOfStmts, foldDefs_append, visitStmt_eq_foldDefs s st]
      cases foldDefs st (defsOfStmt s) with
      | none => rfl
      | some st' => exact visitStmts_eq_foldDefs rest st'
end

theorem analyze_eq_foldDefs (m : Stmts) : analyze m = foldDefs [] (defsOfStmts m) :=
  visitStmts_eq_foldDefs m []

/-! ## Dict lemmas -/

/-- `st[k]` as an option (first — and, for distinct keys, only — match). -/
def dlookup (st : FuncDict) (k : String) : Option FunctionFlow :=
  (st.find? (fun p => p.1 == k)).map (·.2)

theorem dictInsert_keys (st : FuncDict) (k : String) (v : FunctionFlow) :
    (dictInsert st k v).map Prod.fst =
      if st.any (fun p => p.1 == k) then st.map Prod.fst
      else st.map Prod.fst ++ [k] := by
  rw [dictInsert]
  by_cases h : st.any (fun p => p.1 == k)
  · rw [if_pos h, if_pos h, List.map_map]
    apply List.map_congr_left
    intro p _
    by_cases hp : p.1 == k
    · have hp1 : p.1 = k := beq_iff_eq.mp hp
      simp [hp, hp1]
    · have hne : ¬p.1 = k := fun hc => hp (beq_iff_eq.mpr hc)
      simp [hp, hne]
  · rw [if_neg h, if_neg h]
    simp

theorem keysNodup_dictInsert {st : FuncDict} (hs : KeysNodup st) (k : String)
    (v : FunctionFlow) : KeysNodup (dictInsert st k v) := by
  rw [KeysNodup, dictInsert_keys]
  by_cases h : st.any (fun p => p.1 == k)
  · rw [if_pos h]
    exact hs
  · rw [if_neg h]
    rw [Bool.not_eq_true, List.any_eq_false] at h
    rw [List.nodup_append]
    refine ⟨hs, List.nodup_singleton k, ?_⟩
    intro x hx hxk
    rw [List.mem_singleton] at hxk
    subst hxk
    obtain ⟨p, hp, hpx⟩ := List.mem_map.mp hx
    exact h p hp (by simp [hpx])

theorem find_update_self (st : FuncDict) (k : String) (v : FunctionFlow) :
    (st.map (fun p => if p.1 == k then (k, v) else p)).find? (fun p => p.1 == k) =
      if st.any (fun p => p.1 == k) then some (k, v) else none := by
  induction st with
  | nil => rfl
  | cons q rest ih =>
    rw [List.map_cons, List.any_cons]
    by_cases hq : q.1 == k
    · rw [if_pos hq, List.find?_cons_of_pos _ (by simp), hq]
      rfl
    · rw [if_neg hq, List.find?_cons_of_neg _ (by exact hq), ih]
      have hqf : (q.1 == k) = false := by
        rw [Bool.eq_false_iff]
        exact hq
      rw [hqf, Bool.false_or]

theorem find_update_other (st : FuncDict) {k k' : String} (hkk : ¬k' = k)
    (v : FunctionFlow) :
    (st.map (fun p => if p.1 == k then (k, v) else p)).find? (fun p => p.1 == k') =
      st.find? (fun p => p.1 == k') := by
  induction st with
  | nil => rfl
  | cons q rest ih =>
    rw [List.map_cons]
    by_cases hq : q.1 == k
    · have hq1 : q.1 = k := beq_iff_eq.mp hq
      rw [if_pos hq,
        List.find?_cons_of_neg _
          (by simp only [beq_iff_eq]; exact fun hc => hkk hc.symm),
        List.find?_cons_of_neg _
          (by simp only [beq_iff_eq, hq1]; exact fun hc => hkk hc.symm)]
      exact ih
    · rw [if_neg hq]
      by_cases hq' : q.1 == k'
      · rw [List.find?_cons_of_pos _ (by exact hq'), List.find?_cons_of_pos _ (by exact hq')]
      · rw [List.find?_cons_of_neg _ (by exact hq'), List.find?_cons_of_neg _ (by exact hq')]
        exact ih

theorem dlookup_dictInsert_self (st : FuncDict) (k : String) (v : FunctionFlow) :
    dlookup (dictInsert st k v) k = some v := by
  rw [dictInsert]
  by_cases h : st.any (fun p => p.1 == k)
  · rw [if_pos h, dlookup, find_update_self, if_pos h]
    rfl
  · rw [if_neg h, dlookup]
    have hnone : st.find? (fun p => p.1 == k) = none := by
      rw [List.find?_eq_none]
      rw [Bool.not_eq_true, List.any_eq_false] at h
      exact h
    rw [List.find?_append, hnone, List.find?_cons_of_pos _ (by simp)]
    rfl

theorem dlookup_dictInsert_other (st : FuncDict) {k k' : String} (hkk : ¬k' = k)
    (v : FunctionFlow) : dlookup (dictInsert st k v) k' = dlookup st k' := by
  rw [dictInsert]
  by_cases h : st.any (fun p => p.1 == k)
  · rw [if_pos h, dlookup, dlookup, find_update_other st hkk v]
  · rw [if_neg h, dlookup, dlookup, List.find?_append]
    have hlast : ([((k, v) : String × FunctionFlow)].find? (fun p => p.1 == k')) = none := by
      rw [List.find?_cons_of_neg _
        (by simp only [beq_iff_eq]; exact fun hc => hkk hc.symm)]
      rfl
    rw [hlast]
    cases st.find? (fun p => p.1 == k') <;> rfl

theorem countP_keys {d : FuncDict} (hd : KeysNodup d) (n : String) :
    d.countP (fun p => p.1 == n) = if (dlookup d n).isSome then 1 else 0 := by
  induction d with
  | nil => rfl
  | cons p rest ih =>
    obtain ⟨hfresh, hrest⟩ := keysNodup_cons hd
    rw [List.countP_cons]
    by_cases hp : p.1 == n
    · have hp1 : p.1 = n := beq_iff_eq.mp hp
      have hzero : rest.countP (fun p => p.1 == n) = 0 := by
        rw [List.countP_eq_zero]
        intro q hq hqn
        exact hfresh q hq (by rw [beq_iff_eq.mp hqn, hp1])
      rw [hzero, dlookup, List.find?_cons_of_pos _ (by exact hp)]
      simp [hp]
    · rw [ih hrest, dlookup, dlookup, List.find?_cons_of_neg _ (by exact hp)]
      simp [hp]

/-! ## Properties of the definition fold -/

theorem foldDefs_keysNodup :
    ∀ (defs : List (String × List String × Stmts)) (st d : FuncDict),
      KeysNodup st → foldDefs st defs = some d → KeysNodup d := by
  intro defs
  induction defs with
  | nil =>
    intro st d h hd
    rw [foldDefs] at hd
    cases hd
    exact h
  | cons q rest ih =>
    intro st d h hd
    obtain ⟨n, a, b⟩ := q
    rw [foldDefs] at hd
    cases hb : bodyFlow [] b with
    | none => rw [hb] at hd; cases hd
    | some fl =>
      rw [hb] at hd
      exact ih _ _ (keysNodup_dictInsert h n ⟨a, fl⟩) hd

theorem foldDefs_none_of_fail :
    ∀ (defs : List (String × List String × Stmts)) (st : FuncDict),
      (∃ q ∈ defs, bodyFlow [] q.2.2 = none) → foldDefs st defs = none := by
  intro defs
  induction defs with
  | nil =>
    intro st h
    obtain ⟨q, hq, _⟩ := h
    exact absurd hq (List.not_mem_nil q)
  | cons q0 rest ih =>
    intro st h
    obtain ⟨n, a, b⟩ := q0
    rw [foldDefs]
    cases hb : bodyFlow [] b with
    | none => rfl
    | some fl =>
      obtain ⟨q, hq, hqf⟩ := h
      rw [List.mem_cons] at hq
      rcases hq with hq | hq
      · subst hq
        rw [hb] at hqf
        cases hqf
      · exact ih _ ⟨q, hq, hqf⟩

theorem foldDefs_success_flows :
    ∀ (defs : List (String × List String × Stmts)) (st d : FuncDict),
      foldDefs st defs = some d → ∀ q ∈ defs, ∃ fl, bodyFlow [] q.2.2 = some fl := by
  intro defs st d hd q hq
  cases hb : bodyFlow [] q.2.2 with
  | some fl => exact ⟨fl, rfl⟩
  | none =>
    rw [foldDefs_none_of_fail defs st ⟨q, hq, hb⟩] at hd
    cases hd

theorem foldDefs_dlookup_none :
    ∀ (defs : List (String × List String × Stmts)) (st d : FuncDict),
      foldDefs st defs = some d → ∀ n : String,
        defs.filter (fun q => q.1 == n) = [] → dlookup d n = dlookup st n := by
  intro defs
  induction defs with
  | nil =>
    intro st d hd n _
    rw [foldDefs] at hd
    cases hd
    rfl
  | cons q0 rest ih =>
    intro st d hd n hfilter
    obtain ⟨m, a, b⟩ := q0
    rw [foldDefs] at hd
    cases hb : bodyFlow [] b with
    | none => rw [hb] at hd; cases hd
    | some fl =>
      rw [hb] at hd
      by_cases hmn : ((m, a, b) : String × List String × Stmts).1 == n
      · rw [List.filter_cons_of_pos (by exact hmn)] at hfilter
        cases hfilter
      · rw [List.filter_cons_of_neg (by exact hmn)] at hfilter
        rw [ih _ _ hd n hfilter]
        exact dlookup_dictInsert_other st
          (fun hc => hmn (beq_iff_eq.mpr hc.symm)) ⟨a, fl⟩

theorem foldDefs_dlookup_last :
    ∀ (defs : List (String × List String × Stmts)) (st d : FuncDict),
      foldDefs st defs = some d → ∀ (n : String) (q : String × List String × Stmts),
        (defs.filter (fun q => q.1 == n)).getLast? = some q →
        ∃ fl, bodyFlow [] q.2.2 = some fl ∧ dlookup d n = some ⟨q.2.1, fl⟩ := by
  intro defs
  induction defs with
  | nil =>
    intro st d hd n q hlast
    cases hlast
  | cons q0 rest ih =>
    intro st d hd n q hlast
    obtain ⟨m, a, b⟩ := q0
    rw [foldDefs] at hd
    cases hb : bodyFlow [] b with
    | none => rw [hb] at hd; cases hd
    | some fl =>
      rw [hb] at hd
      by_cases hmn : ((m, a, b) : String × List String × Stmts).1 == n
      · rw [List.filter_cons_of_pos (by exact hmn)] at hlast
        cases hfr : rest.filter (fun q => q.1 == n) with
        | nil =>
          rw [hfr, List.getLast?_singleton] at hlast
          cases hlast
          refine ⟨fl, hb, ?_⟩
          rw [foldDefs_dlookup_none rest _ _ hd n hfr]
          have hmn' : m = n := beq_iff_eq.mp hmn
          subst hmn'
          exact dlookup_dictInsert_self st m ⟨a, fl⟩
        | cons x xs =>
          rw [hfr, List.getLast?_cons_cons, ← hfr] at hlast
          exact ih _ _ hd n q hlast
      · rw [List.filter_cons_of_neg (by exact hmn)] at hlast
        exact ih _ _ hd n q hlast

/-! ## Flow extraction lemmas -/

theorem bodyFlow_acc :
    ∀ (b : Stmts) (acc : List String),
      bodyFlow acc b = (bodyFlow [] b).map (fun l => acc ++ l)
  | .nil, acc => by simp [bodyFlow]
  | .cons s rest, acc => by
    rw [bodyFlow]
    conv_rhs => rw [bodyFlow]
    cases hs : bodyStep s with
    | error e => rfl
    | ok o =>
      cases o with
      | none => exact bodyFlow_acc rest acc
      | some x =>
        dsimp only
        rw [bodyFlow_acc rest (acc ++ [x]), List.nil_append,
          bodyFlow_acc rest [x], Option.map_map]
        cases bodyFlow [] rest with
        | none => rfl
        | some l => simp

/-- The flow entry (if any) one body statement contributes, when no
exception interferes. -/
def stepView (s : Stmt) : Option String :=
  match bodyStep s with
  | .ok o => o
  | .error _ => none

/-- Whether a statement is one of the four kinds the extractor records. -/
def isControl : Stmt → Bool
  | .ifStmt _ _ _ => true
  | .forStmt _ _ _ _ => true
  | .whileStmt _ _ _ => true
  | .returnStmt _ => true
  | .functionDef _ _ _ => false
  | .asyncFunctionDef _ _ _ => false
  | .other _ => false

theorem bodyStep_skip (s : Stmt) (h : isControl s = false) : bodyStep s = .ok none := by
  cases s with
  | ifStmt t body orelse => rw [isControl] at h; cases h
  | forStmt t it body orelse => rw [isControl] at h; cases h
  | whileStmt t body orelse => rw [isControl] at h; cases h
  | returnStmt v => rw [isControl] at h; cases h
  | functionDef n a b => rfl
  | asyncFunctionDef n a b => rfl
  | other c => rfl

theorem bodyFlow_eq_filterMap :
    ∀ (b : Stmts) (fl : List String), bodyFlow [] b = some fl →
      fl = b.toList.filterMap stepView
  | .nil, fl => by
    intro h
    rw [bodyFlow] at h
    cases h
    rfl
  | .cons s rest, fl => by
    intro h
    rw [bodyFlow] at h
    cases hs : bodyStep s with
    | error e =>
      rw [hs] at h
      cases h
    | ok o =>
      rw [hs] at h
      cases o with
      | none =>
        rw [Stmts.toList, List.filterMap_cons]
        have hsv : stepView s = none := by rw [stepView, hs]
        rw [hsv]
        exact bodyFlow_eq_filterMap rest fl h
      | some x =>
        rw [Stmts.toList, List.filterMap_cons]
        have hsv : stepView s = some x := by rw [stepView, hs]
        rw [hsv]
        dsimp only at h ⊢
        rw [List.nil_append, bodyFlow_acc rest [x]] at h
        cases hrest : bodyFlow [] rest with
        | none =>
          rw [hrest] at h
          cases h
        | some fl' =>
          rw [hrest] at h
          cases h
          rw [← bodyFlow_eq_filterMap rest fl' hrest]
          rfl

theorem bodyFlow_none_of_error :
    ∀ (b : Stmts) (acc : List String),
      (∃ s ∈ b.toList, bodyStep s = .error ()) → bodyFlow acc b = none
  | .nil, acc => by
    intro h
    obtain ⟨s, hs, _⟩ := h
    exact absurd hs (List.not_mem_nil s)
  | .cons s0 rest, acc => by
    intro h
    rw [bodyFlow]
    cases hs0 : bodyStep s0 with
    | error e => rfl
    | ok o =>
      obtain ⟨s, hs, hserr⟩ := h
      rw [Stmts.toList, List.mem_cons] at hs
      rcases hs with hs | hs
      · subst hs
        rw [hs0] at hserr
        cases hserr
      · cases o with
        | none => exact bodyFlow_none_of_error rest acc ⟨s, hs, hserr⟩
        | some x => exact bodyFlow_none_of_error rest (acc ++ [x]) ⟨s, hs, hserr⟩

/-! ## Definition-free statements -/

mutual
/-- No synchronous `def` occurs anywhere in the statement. -/
def noDefsStmt : Stmt → Bool
  | .ifStmt _ body orelse => noDefsStmts body && noDefsStmts orelse
  | .forStmt _ _ body orelse => noDefsStmts body && noDefsStmts orelse
  | .whileStmt _ body orelse => noDefsStmts body && noDefsStmts orelse
  | .returnStmt _ => true
  | .functionDef _ _ _ => false
  | .asyncFunctionDef _ _ body => noDefsStmts body
  | .other children => noDefsStmts children
/-- `noDefsStmt` over a statement list. -/
def noDefsStmts : Stmts → Bool
  | .nil => true
  | .cons s rest => noDefsStmt s && noDefsStmts rest
end

mutual
theorem defsOf_noDefsStmt : ∀ (s : Stmt), noDefsStmt s = true → defsOfStmt s = []
  | .ifStmt t body orelse, h => by
      rw [noDefsStmt, Bool.and_eq_true] at h
      rw [defsOfStmt, defsOf_noDefsStmts body h.1, defsOf_noDefsStmts orelse h.2]
      rfl
  | .forStmt t it body orelse, h => by
      rw [noDefsStmt, Bool.and_eq_true] at h
      rw [defsOfStmt, defsOf_noDefsStmts body h.1, defsOf_noDefsStmts orelse h.2]
      rfl
  | .whileStmt t body orelse, h => by
      rw [noDefsStmt, Bool.and_eq_true] at h
      rw [defsOfStmt, defsOf_noDefsStmts body h.1, defsOf_noDefsStmts orelse h.2]
      rfl
  | .returnStmt v, _ => rfl
  | .functionDef n a b, h => by cases h
  | .asyncFunctionDef n a b, h => defsOf_noDefsStmts b h
  | .other c, h => defsOf_noDefsStmts c h
theorem defsOf_noDefsStmts : ∀ (l : Stmts), noDefsStmts l = true → defsOfStmts l = []
  | .nil, _ => rfl
  | .cons s rest, h => by
      rw [noDefsStmts, Bool.and_eq_true] at h
      rw [defsOfStmts, defsOf_noDefsStmt s h.1, defsOf_noDefsStmts rest h.2]
      rfl
end

theorem visitStmts_noDefs (l : Stmts) (h : noDefsStmts l = true) (st : FuncDict) :
    visitStmts st l = some st := by
  rw [visitStmts_eq_foldDefs, defsOf_noDefsStmts l h]
  rfl

theorem analyze_keysNodup {m : Stmts} {d : FuncDict} (h : analyze m = some d) :
    KeysNodup d := by
  rw [analyze_eq_foldDefs] at h
  exact foldDefs_keysNodup _ _ _ (by rw [KeysNodup]; exact List.nodup_nil) h

theorem bodyFlow_no_control :
    ∀ b : Stmts, (∀ st ∈ b.toList, isControl st = false) → bodyFlow [] b = some []
  | .nil, _ => rfl
  | .cons s rest, h => by
      rw [bodyFlow, bodyStep_skip s (h s (by rw [Stmts.toList]; exact List.mem_cons_self s _))]
      exact bodyFlow_no_control rest
        (fun st hst => h st (by rw [Stmts.toList]; exact List.mem_cons_of_mem s hst))

theorem stepNodesFrom_shape {name : String} :
    ∀ {fl : List String} {i : Nat} {n : Node}, n ∈ stepNodesFrom name i fl →
      ¬n.attrs.shape = "ellipse" := by
  intro fl
  induction fl with
  | nil =>
    intro i n hn
    rw [stepNodesFrom] at hn
    exact absurd hn (List.not_mem_nil n)
  | cons s rest ih =>
    intro i n hn
    rw [stepNodesFrom, List.mem_cons] at hn
    rcases hn with hn | hn
    · subst hn
      rw [stepNode]
      by_cases hc : pyStartsWith s "Decision"
      · rw [if_pos hc]
        exact (by decide : ¬("diamond" : String) = "ellipse")
      · rw [if_neg hc]
        exact (by decide : ¬("box" : String) = "ellipse")
    · exact ih hn

theorem midNodes_shape {name : String} {fl : List String} :
    ∀ n ∈ midNodes name fl, ¬n.attrs.shape = "ellipse" := by
  intro n hn
  rw [midNodes] at hn
  by_cases hfl : fl.isEmpty
  · rw [if_pos hfl, List.mem_singleton] at hn
    subst hn
    exact (by decide : ¬("plaintext" : String) = "ellipse")
  · rw [if_neg hfl] at hn
    exact stepNodesFrom_shape hn

/-! ## The claims -/

/-- Claim C1, as amended: for `f(a, b)` with body `if a > b:` (any nested
suite free of function definitions) followed by `return a`, the extractor
records the flow `["Decision: if a > b", "Return a"]`, and the cluster of
`f` is exactly the chain Start → diamond labeled `"if a > b"` → box labeled
`"Return a"` → End, with 4 nodes and 3 edges.  (The source strips only the
`"Decision: "` tag from the step text, so the diamond keeps the `if`
keyword: its label is `"if a > b"`, not `"a > b"` as the original claim
stated.) -/
theorem claim_C1 (nested : Stmts) (hnd : noDefsStmts nested = true) :
    analyze (.cons (.functionDef "f" ["a", "b"]
        (.cons (.ifStmt (.renderable "a > b") nested .nil)
          (.cons (.returnStmt (some (.renderable "a"))) .nil))) .nil) =
      some [("f", ⟨["a", "b"], ["Decision: if a > b", "Return a"]⟩)] ∧
    clusterNodes (build_graph_model
        [("f", ⟨["a", "b"], ["Decision: if a > b", "Return a"]⟩)]) (clusterOf "f") =
      [⟨"func_f_start",
        { label := "Start", shape := "ellipse", fillcolor := some "palegreen",
          subgraph := some "cluster_func_f", func_name := some "f",
          func_args := some ["a", "b"] }⟩,
       ⟨"func_f_step_0",
        { label := "if a > b", shape := "diamond", fillcolor := some "khaki",
          subgraph := some "cluster_func_f" }⟩,
       ⟨"func_f_step_1",
        { label := "Return a", shape := "box", subgraph := some "cluster_func_f" }⟩,
       ⟨"func_f_end",
        { label := "End", shape := "ellipse", fillcolor := some "lightcoral",
          subgraph := some "cluster_func_f" }⟩] ∧
    clusterEdges (build_graph_model
        [("f", ⟨["a", "b"], ["Decision: if a > b", "Return a"]⟩)]) (clusterOf "f") =
      [("func_f_start", "func_f_step_0"), ("func_f_step_0", "func_f_step_1"),
       ("func_f_step_1", "func_f_end")] ∧
    (clusterNodes (build_graph_model
        [("f", ⟨["a", "b"], ["Decision: if a > b", "Return a"]⟩)]) (clusterOf "f")).length = 4 ∧
    (clusterEdges (build_graph_model
        [("f", ⟨["a", "b"], ["Decision: if a > b", "Return a"]⟩)]) (clusterOf "f")).length = 3 := by
  have hvn : ∀ st : FuncDict, visitStmts st nested = some st := visitStmts_noDefs nested hnd
  refine ⟨?_, by decide, by decide, by decide, by decide⟩
  show visitStmts [] _ = _
  rw [visitStmts, visitStmt]
  have hflow : bodyFlow []
      (.cons (.ifStmt (.renderable "a > b") nested .nil)
        (.cons (.returnStmt (some (.renderable "a"))) .nil)) =
      some ["Decision: if a > b", "Return a"] := rfl
  rw [hflow]
  show (match visitStmts _ (.cons (.ifStmt (.renderable "a > b") nested .nil)
      (.cons (.returnStmt (some (.renderable "a"))) .nil)) with
    | none => none
    | some st' => visitStmts st' .nil) = _
  rw [visitStmts, visitStmt, hvn]
  rfl

/-- Claim C1 counterexample: with the nested suite empty, no node of the
whole built graph is labeled `"a > b"` — the diamond the original claim
describes does not exist; its label is `"if a > b"`. -/
theorem claim_C1_counterexample :
    analyze (.cons (.functionDef "f" ["a", "b"]
        (.cons (.ifStmt (.renderable "a > b") .nil .nil)
          (.cons (.returnStmt (some (.renderable "a"))) .nil))) .nil) =
      some [("f", ⟨["a", "b"], ["Decision: if a > b", "Return a"]⟩)] ∧
    ((build_graph_model
        [("f", ⟨["a", "b"], ["Decision: if a > b", "Return a"]⟩)]).nodes.filter
      (fun n => n.attrs.label == "a > b")) = [] := by
  decide

/-- Witness for claim C1 at the empty nested suite. -/
theorem claim_C1_witness :
    noDefsStmts .nil = true ∧
    (analyze (.cons (.functionDef "f" ["a", "b"]
        (.cons (.ifStmt (.renderable "a > b") .nil .nil)
          (.cons (.returnStmt (some (.renderable "a"))) .nil))) .nil) =
      some [("f", ⟨["a", "b"], ["Decision: if a > b", "Return a"]⟩)] ∧
    clusterNodes (build_graph_model
        [("f", ⟨["a", "b"], ["Decision: if a > b", "Return a"]⟩)]) (clusterOf "f") =
      [⟨"func_f_start",
        { label := "Start", shape := "ellipse", fillcolor := some "palegreen",
          subgraph := some "cluster_func_f", func_name := some "f",
          func_args := some ["a", "b"] }⟩,
       ⟨"func_f_step_0",
        { label := "if a > b", shape := "diamond", fillcolor := some "khaki",
          subgraph := some "cluster_func_f" }⟩,
       ⟨"func_f_step_1",
        { label := "Return a", shape := "box", subgraph := some "cluster_func_f" }⟩,
       ⟨"func_f_end",
        { label := "End", shape := "ellipse", fillcolor := some "lightcoral",
          subgraph := some "cluster_func_f" }⟩] ∧
    clusterEdges (build_graph_model
        [("f", ⟨["a", "b"], ["Decision: if a > b", "Return a"]⟩)]) (clusterOf "f") =
      [("func_f_start", "func_f_step_0"), ("func_f_step_0", "func_f_step_1"),
       ("func_f_step_1", "func_f_end")] ∧
    (clusterNodes (build_graph_model
        [("f", ⟨["a", "b"], ["Decision: if a > b", "Return a"]⟩)]) (clusterOf "f")).length = 4 ∧
    (clusterEdges (build_graph_model
        [("f", ⟨["a", "b"], ["Decision: if a > b", "Return a"]⟩)]) (clusterOf "f")).length = 3) :=
  ⟨by decide, claim_C1 .nil (by decide)⟩

/-- Claim C2: in the built graph, every cluster has exactly one Start node
(ellipse, palegreen) and exactly one End node (ellipse, lightcoral); the
edges within a cluster are exactly the consecutive pairs of its chain (a
single linear chain, no branching, also for Decision steps), so every node
other than Start and End has exactly one incoming and one outgoing edge
within its cluster. -/
theorem claim_C2 (s : FuncDict) (hs : KeysNodup s) (name : String) (d : FunctionFlow)
    (hmem : (name, d) ∈ s) :
    ((clusterNodes (build_graph_model s) (clusterOf name)).countP
        (fun n => n.attrs.label == "Start" && n.attrs.shape == "ellipse" &&
          n.attrs.fillcolor == some "palegreen") = 1) ∧
    ((clusterNodes (build_graph_model s) (clusterOf name)).countP
        (fun n => n.attrs.label == "End" && n.attrs.shape == "ellipse" &&
          n.attrs.fillcolor == some "lightcoral") = 1) ∧
    clusterEdges (build_graph_model s) (clusterOf name) = chainPairs (chainIds name d) ∧
    ∀ n ∈ clusterNodes (build_graph_model s) (clusterOf name),
      ¬n.id = nodeId name .tstart → ¬n.id = nodeId name .tend →
      (clusterEdges (build_graph_model s) (clusterOf name)).countP
          (fun e => e.2 == n.id) = 1 ∧
      (clusterEdges (build_graph_model s) (clusterOf name)).countP
          (fun e => e.1 == n.id) = 1 := by
  rw [clusterNodes_build hs hmem, clusterEdges_build hs hmem]
  refine ⟨?_, ?_, rfl, ?_⟩
  · rw [nodesOfFunc, List.countP_cons, List.countP_append]
    have hmid : (midNodes name d.flow).countP
        (fun n => n.attrs.label == "Start" && n.attrs.shape == "ellipse" &&
          n.attrs.fillcolor == some "palegreen") = 0 := by
      rw [List.countP_eq_zero]
      intro n hn hpred
      rw [Bool.and_eq_true, Bool.and_eq_true] at hpred
      exact midNodes_shape n hn (beq_iff_eq.mp hpred.1.2)
    rw [hmid]
    simp [startNode, endNode, List.countP_cons]
  · rw [nodesOfFunc, List.countP_cons, List.countP_append]
    have hmid : (midNodes name d.flow).countP
        (fun n => n.attrs.label == "End" && n.attrs.shape == "ellipse" &&
          n.attrs.fillcolor == some "lightcoral") = 0 := by
      rw [List.countP_eq_zero]
      intro n hn hpred
      rw [Bool.and_eq_true, Bool.and_eq_true] at hpred
      exact midNodes_shape n hn (beq_iff_eq.mp hpred.1.2)
    rw [hmid]
    simp [startNode, endNode, List.countP_cons]
  · intro n hn hns hne
    have hnmid : n ∈ midNodes name d.flow := by
      rw [nodesOfFunc, List.mem_cons, List.mem_append] at hn
      rcases hn with hn | hn | hn
      · exact absurd (by rw [hn]; rfl : n.id = nodeId name .tstart) hns
      · exact hn
      · rw [List.mem_singleton] at hn
        exact absurd (by rw [hn]; rfl : n.id = nodeId name .tend) hne
    have hid : n.id ∈ (midNodes name d.flow).map (·.id) :=
      List.mem_map_of_mem _ hnmid
    have hchain : chainIds name d =
        nodeId name .tstart ::
          ((midNodes name d.flow).map (·.id) ++ [nodeId name .tend]) := by
      rw [chainIds, nodesOfFunc, List.map_cons, List.map_append]
      rfl
    have hnd2 := chainIds_nodup name d
    rw [hchain] at hnd2
    constructor
    · rw [edgesOfFunc, hchain, countP_snd_chainPairs _ _ hnd2 n.id,
        if_pos (List.mem_append_left _ hid)]
    · rw [edgesOfFunc, hchain, countP_fst_chainPairs _ _ hnd2 n.id]
      have hdl : (nodeId name .tstart ::
          ((midNodes name d.flow).map (·.id) ++ [nodeId name .tend])).dropLast =
          nodeId name .tstart :: (midNodes name d.flow).map (·.id) := by
        rw [show nodeId name .tstart ::
            ((midNodes name d.flow).map (·.id) ++ [nodeId name .tend]) =
            (nodeId name .tstart :: (midNodes name d.flow).map (·.id)) ++
              [nodeId name .tend] from rfl,
          List.dropLast_concat]
      rw [hdl, if_pos (List.mem_cons_of_mem _ hid)]

/-- Witness for claim C2 on a one-function structure with a decision and a
return step. -/
theorem claim_C2_witness :
    KeysNodup [("f", ⟨["a", "b"], ["Decision: if a > b", "Return a"]⟩)] ∧
    (("f", (⟨["a", "b"], ["Decision: if a > b", "Return a"]⟩ : FunctionFlow)) ∈
      [("f", (⟨["a", "b"], ["Decision: if a > b", "Return a"]⟩ : FunctionFlow))]) ∧
    ∀ n ∈ clusterNodes (build_graph_model
        [("f", ⟨["a", "b"], ["Decision: if a > b", "Return a"]⟩)]) (clusterOf "f"),
      ¬n.id = nodeId "f" .tstart → ¬n.id = nodeId "f" .tend →
      (clusterEdges (build_graph_model
          [("f", ⟨["a", "b"], ["Decision: if a > b", "Return a"]⟩)]) (clusterOf "f")).countP
          (fun e => e.2 == n.id) = 1 ∧
      (clusterEdges (build_graph_model
          [("f", ⟨["a", "b"], ["Decision: if a > b", "Return a"]⟩)]) (clusterOf "f")).countP
          (fun e => e.1 == n.id) = 1 :=
  ⟨by unfold KeysNodup; decide, by decide,
    (claim_C2 [("f", ⟨["a", "b"], ["Decision: if a > b", "Return a"]⟩)]
      (by unfold KeysNodup; decide) "f"
      ⟨["a", "b"], ["Decision: if a > b", "Return a"]⟩ (by decide)).2.2.2⟩

/-- Claim C3: for every structure with distinct function names, all node ids
in the built graph are pairwise distinct across the whole graph, and every
node's id is of the form `nodeId name tag` — derived from its function's
name (the cluster id) plus its positional role. -/
theorem claim_C3 (s : FuncDict) (hs : KeysNodup s) :
    ((build_graph_model s).nodes.map (·.id)).Nodup ∧
    ∀ n ∈ (build_graph_model s).nodes, ∃ p ∈ s, ∃ t : NTag,
      n.id = nodeId p.1 t ∧ n.attrs.subgraph = some (clusterOf p.1) := by
  refine ⟨build_ids_nodup hs, ?_⟩
  intro n hn
  have hn' : n ∈ s.flatMap (fun p => nodesOfFunc p.1 p.2) := by
    rw [build_graph_model_eq] at hn
    exact hn
  obtain ⟨p, hp, hnp⟩ := List.mem_flatMap.mp hn'
  refine ⟨p, hp, ?_⟩
  obtain ⟨t, ht⟩ := chainIds_shape (List.mem_map_of_mem (·.id) hnp)
  exact ⟨t, ht, nodesOfFunc_subgraph hnp⟩

/-- Witness for claim C3 on two functions with identical bodies (identical
labels, distinct ids). -/
theorem claim_C3_witness :
    KeysNodup [("f", ⟨[], ["Return 1"]⟩), ("g", ⟨[], ["Return 1"]⟩)] ∧
    ((build_graph_model
      [("f", ⟨[], ["Return 1"]⟩), ("g", ⟨[], ["Return 1"]⟩)]).nodes.map (·.id)).Nodup :=
  ⟨by unfold KeysNodup; decide,
    (claim_C3 [("f", ⟨[], ["Return 1"]⟩), ("g", ⟨[], ["Return 1"]⟩)]
      (by unfold KeysNodup; decide)).1⟩

/-- Claim C4, as amended: the pipeline does NOT recover from an unrenderable
condition/target/iterator with a placeholder — `ast.unparse` raising inside
`visit_FunctionDef` aborts the whole analysis.  Whenever any visited
function definition has a top-level statement whose classification raises
(an unrenderable sub-expression), the analysis of the whole tree returns
the error outcome. -/
theorem claim_C4 (t : Stmts)
    (h : ∃ q ∈ defsOfStmts t, ∃ s ∈ (q.2.2 : Stmts).toList, bodyStep s = .error ()) :
    analyze t = none := by
  rw [analyze_eq_foldDefs]
  obtain ⟨q, hq, herr⟩ := h
  exact foldDefs_none_of_fail _ _ ⟨q, hq, bodyFlow_none_of_error _ [] herr⟩

/-- Claim C4 counterexample: a function whose `if` condition is
unrenderable makes the whole analysis abort (return the error outcome),
contradicting the claim that extraction completes with a placeholder. -/
theorem claim_C4_counterexample :
    analyze (.cons (.functionDef "f" []
      (.cons (.ifStmt .unrenderable .nil .nil) .nil)) .nil) = none ∧
    unparse .unrenderable = none := by
  constructor
  · decide
  · rfl

/-- Witness for claim C4 on a function with an unrenderable `while`
condition. -/
theorem claim_C4_witness :
    analyze (.cons (.functionDef "g" []
      (.cons (.whileStmt .unrenderable .nil .nil) .nil)) .nil) = none :=
  claim_C4 _ ⟨("g", [], .cons (.whileStmt .unrenderable .nil .nil) .nil),
    by decide, .whileStmt .unrenderable .nil .nil, by decide, rfl⟩

/-- Claim C5: when the tree contains two or more definitions of the same
name, a successful analysis records exactly one entry for that name — the
one from the definition visited last — and the renderer builds exactly one
cluster for that name. -/
theorem claim_C5 (t : Stmts) (d : FuncDict) (hd : analyze t = some d) (n : String)
    (htwice : 2 ≤ ((defsOfStmts t).filter (fun q => q.1 == n)).length) :
    ∃ q, ((defsOfStmts t).filter (fun q => q.1 == n)).getLast? = some q ∧
      ∃ fl, bodyFlow [] q.2.2 = some fl ∧
        dlookup d n = some ⟨q.2.1, fl⟩ ∧
        d.countP (fun p => p.1 == n) = 1 ∧
        ((create_logic_flowchart (build_graph_model d)).clusters.countP
          (fun c => c.name == clusterOf n)) = 1 := by
  have hnodup : KeysNodup d := analyze_keysNodup hd
  have hfold : foldDefs [] (defsOfStmts t) = some d := by
    rw [← analyze_eq_foldDefs]
    exact hd
  obtain ⟨q, hq⟩ : ∃ q, ((defsOfStmts t).filter (fun q => q.1 == n)).getLast? = some q := by
    cases hfil : (defsOfStmts t).filter (fun q => q.1 == n) with
    | nil => rw [hfil] at htwice; cases htwice
    | cons x xs =>
      have : (x :: xs).getLast? = some ((x :: xs).getLast (by simp)) :=
        List.getLast?_eq_getLast _ _
      exact ⟨_, this⟩
  obtain ⟨fl, hfl, hlook⟩ := foldDefs_dlookup_last _ _ _ hfold n q hq
  refine ⟨q, hq, fl, hfl, hlook, ?_, ?_⟩
  · rw [countP_keys hnodup n, hlook]
    rfl
  · rw [render_build hnodup]
    show ((d.map fun p => clusterForFunc p.1 p.2).countP
      (fun c => c.name == clusterOf n)) = 1
    rw [List.countP_map]
    have hpt : ∀ p ∈ d, ((fun c => c.name == clusterOf n) ∘
        (fun p => clusterForFunc p.1 p.2)) p = (p.1 == n) := by
      intro p _
      show ((clusterForFunc p.1 p.2).name == clusterOf n) = (p.1 == n)
      by_cases hpn : p.1 = n
      · rw [hpn]
        simp [clusterForFunc]
      · have h1 : ((clusterForFunc p.1 p.2).name == clusterOf n) = false := by
          rw [beq_eq_false_iff_ne]
          intro hc
          exact hpn (clusterOf_inj hc)
        have h2 : (p.1 == n) = false := by
          rw [beq_eq_false_iff_ne]
          exact hpn
        rw [h1, h2]
    have hpt2 : ∀ x ∈ d, (((fun c => c.name == clusterOf n) ∘
        (fun p => clusterForFunc p.1 p.2)) x = true ↔ (x.1 == n) = true) := by
      intro x hx
      rw [hpt x hx]
    rw [List.countP_congr hpt2, countP_keys hnodup n, hlook]
    rfl

/-- The two-definition module used as the C5 witness. -/
def tC5 : Stmts :=
  .cons (.functionDef "f" ["x"] (.cons (.returnStmt none) .nil))
    (.cons (.functionDef "f" [] .nil) .nil)

/-- The dict the analyzer produces on `tC5`. -/
def dC5 : FuncDict := [("f", ⟨[], []⟩)]

/-- Witness for claim C5 on a module defining `f` twice; the second
definition (no parameters, empty body) wins. -/
theorem claim_C5_witness :
    analyze tC5 = some dC5 ∧
    2 ≤ ((defsOfStmts tC5).filter (fun q => q.1 == "f")).length ∧
    ∃ q, ((defsOfStmts tC5).filter (fun q => q.1 == "f")).getLast? = some q ∧
      ∃ fl, bodyFlow [] q.2.2 = some fl ∧
        dlookup dC5 "f" = some ⟨q.2.1, fl⟩ ∧
        dC5.countP (fun p => p.1 == "f") = 1 ∧
        ((create_logic_flowchart (build_graph_model dC5)).clusters.countP
          (fun c => c.name == clusterOf "f")) = 1 :=
  ⟨by decide, by decide, claim_C5 tC5 dC5 (by decide) "f" (by decide)⟩

/-- Claim C6: a body with no top-level `if`/`for`/`while`/`return` extracts
an empty flow, and a function with an empty flow builds the cluster
Start → "No operations" placeholder → End, exactly three nodes chained by
two edges in that order. -/
theorem claim_C6 (s : FuncDict) (hs : KeysNodup s) (name : String) (d : FunctionFlow)
    (hmem : (name, d) ∈ s) (hempty : d.flow = []) :
    clusterNodes (build_graph_model s) (clusterOf name) =
      [startNode name d.args, emptyNode name, endNode name] ∧
    (emptyNode name).attrs.label = "No operations" ∧
    clusterEdges (build_graph_model s) (clusterOf name) =
      [(nodeId name .tstart, nodeId name .tempty),
       (nodeId name .tempty, nodeId name .tend)] ∧
    ∀ body : Stmts, (∀ st ∈ body.toList, isControl st = false) →
      bodyFlow [] body = some [] := by
  rw [clusterNodes_build hs hmem, clusterEdges_build hs hmem]
  refine ⟨?_, rfl, ?_, fun body h => bodyFlow_no_control body h⟩
  · rw [nodesOfFunc, midNodes, hempty]
    rfl
  · rw [edgesOfFunc, chainIds, nodesOfFunc, midNodes, hempty]
    rfl

/-- Witness for claim C6 on a single parameterless function with an empty
flow. -/
theorem claim_C6_witness :
    KeysNodup [("h", (⟨[], []⟩ : FunctionFlow))] ∧
    clusterNodes (build_graph_model [("h", (⟨[], []⟩ : FunctionFlow))]) (clusterOf "h") =
      [startNode "h" [], emptyNode "h", endNode "h"] ∧
    clusterEdges (build_graph_model [("h", (⟨[], []⟩ : FunctionFlow))]) (clusterOf "h") =
      [(nodeId "h" .tstart, nodeId "h" .tempty),
       (nodeId "h" .tempty, nodeId "h" .tend)] := by
  have h := claim_C6 [("h", (⟨[], []⟩ : FunctionFlow))] (by unfold KeysNodup; decide)
    "h" (⟨[], []⟩ : FunctionFlow) (by decide) rfl
  exact ⟨by unfold KeysNodup; decide, h.1, h.2.2.1⟩

/-- Claim C7: a tree without function definitions analyzes to the empty
structure, the Graph Builder yields the empty graph (zero clusters), and
the renderer emits the single informational node
"No functions found to map." instead of an empty diagram. -/
theorem claim_C7 (t : Stmts) (h : noDefsStmts t = true) :
    analyze t = some [] ∧
    build_graph_model [] = ⟨[], []⟩ ∧
    create_logic_flowchart (build_graph_model []) =
      { topNodes := [mainNode], clusters := [], edges := [] } ∧
    mainNode.label = "No functions found to map." := by
  exact ⟨visitStmts_noDefs t h [], rfl, rfl, rfl⟩

/-- Witness for claim C7 on a module holding only a return statement and an
async function definition (no synchronous defs). -/
theorem claim_C7_witness :
    noDefsStmts (.cons (.returnStmt none)
      (.cons (.asyncFunctionDef "a" [] .nil) .nil)) = true ∧
    analyze (.cons (.returnStmt none)
      (.cons (.asyncFunctionDef "a" [] .nil) .nil)) = some [] ∧
    create_logic_flowchart (build_graph_model []) =
      { topNodes := [mainNode], clusters := [], edges := [] } :=
  ⟨by decide,
    (claim_C7 (.cons (.returnStmt none)
      (.cons (.asyncFunctionDef "a" [] .nil) .nil)) (by decide)).1,
    (claim_C7 (.cons (.returnStmt none)
      (.cons (.asyncFunctionDef "a" [] .nil) .nil)) (by decide)).2.2.1⟩

/-- Claim C8: a successful extraction records the parameters exactly as
declared and the flow is exactly the in-order classification of the
top-level body statements; statements that are not `if`/`for`/`while`/
`return` contribute no step and raise no error. -/
theorem claim_C8 (name : String) (args : List String) (body : Stmts)
    (fl : List String) (hfl : bodyFlow [] body = some fl) :
    fl = body.toList.filterMap stepView ∧
    (∀ s ∈ body.toList, isControl s = false →
      stepView s = none ∧ bodyStep s = .ok none) ∧
    ∀ st : FuncDict, visitStmt st (.functionDef name args body) =
      visitStmts (dictInsert st name ⟨args, fl⟩) body := by
  refine ⟨bodyFlow_eq_filterMap body fl hfl, ?_, ?_⟩
  · intro s hsmem hsc
    have hstep := bodyStep_skip s hsc
    constructor
    · rw [stepView, hstep]
    · exact hstep
  · intro st
    rw [visitStmt, hfl]

/-- Witness for claim C8 on a body interleaving a decision, a skipped
statement, and a return. -/
theorem claim_C8_witness :
    bodyFlow [] (.cons (.ifStmt (.renderable "x > 0") .nil .nil)
      (.cons (.other .nil) (.cons (.returnStmt (some (.renderable "x"))) .nil))) =
      some ["Decision: if x > 0", "Return x"] ∧
    ["Decision: if x > 0", "Return x"] =
      (Stmts.cons (.ifStmt (.renderable "x > 0") .nil .nil)
        (.cons (.other .nil)
          (.cons (.returnStmt (some (.renderable "x"))) .nil))).toList.filterMap stepView :=
  ⟨by decide,
    (claim_C8 "f" ["x"]
      (.cons (.ifStmt (.renderable "x > 0") .nil .nil)
        (.cons (.other .nil) (.cons (.returnStmt (some (.renderable "x"))) .nil)))
      ["Decision: if x > 0", "Return x"] (by decide)).1⟩

/-- Claim C9: the Graph Builder and the Diagram Renderer are deterministic —
equal extracted structures yield identical graphs (same node ids, same node
and edge order) and identical rendered diagrams. -/
theorem claim_C9 (s1 s2 : FuncDict) (h : s1 = s2) :
    build_graph_model s1 = build_graph_model s2 ∧
    (build_graph_model s1).nodes.map (·.id) = (build_graph_model s2).nodes.map (·.id) ∧
    (build_graph_model s1).edges = (build_graph_model s2).edges ∧
    create_logic_flowchart (build_graph_model s1) =
      create_logic_flowchart (build_graph_model s2) := by
  subst h
  exact ⟨rfl, rfl, rfl, rfl⟩

/-- Witness for claim C9: two runs on the same one-function structure. -/
theorem claim_C9_witness :
    create_logic_flowchart (build_graph_model [("f", (⟨["a"], ["Return a"]⟩ : FunctionFlow))]) =
      create_logic_flowchart (build_graph_model [("f", (⟨["a"], ["Return a"]⟩ : FunctionFlow))]) :=
  (claim_C9 [("f", (⟨["a"], ["Return a"]⟩ : FunctionFlow))]
    [("f", (⟨["a"], ["Return a"]⟩ : FunctionFlow))] rfl).2.2.2

/-- Claim C10: an async function definition contributes no entry itself —
visiting it is exactly visiting its body — so an async def whose body has
no synchronous defs adds nothing to the structure, while synchronous
definitions nested inside an async def are still recorded. -/
theorem claim_C10 (name : String) (args : List String) (body : Stmts) :
    (∀ st : FuncDict, visitStmt st (.asyncFunctionDef name args body) =
      visitStmts st body) ∧
    (noDefsStmts body = true →
      analyze (.cons (.asyncFunctionDef name args body) .nil) = some []) ∧
    ∀ (g : String) (gargs : List String),
      analyze (.cons (.asyncFunctionDef name args
        (.cons (.functionDef g gargs .nil) .nil)) .nil) =
        some [(g, ⟨gargs, []⟩)] := by
  refine ⟨fun st => rfl, ?_, ?_⟩
  · intro h
    have h1 : visitStmt [] (.asyncFunctionDef name args body) = some [] := by
      show visitStmts [] body = some []
      exact visitStmts_noDefs body h []
    rw [analyze, visitStmts, h1]
    rfl
  · intro g gargs
    rfl

/-- Witness for claim C10 at a concrete async definition. -/
theorem claim_C10_witness :
    visitStmt [] (.asyncFunctionDef "a" [] .nil) = visitStmts [] .nil ∧
    analyze (.cons (.asyncFunctionDef "a" [] .nil) .nil) = some [] ∧
    analyze (.cons (.asyncFunctionDef "a" []
      (.cons (.functionDef "g" ["x"] .nil) .nil)) .nil) = some [("g", ⟨["x"], []⟩)] :=
  ⟨(claim_C10 "a" [] .nil).1 [], (claim_C10 "a" [] .nil).2.1 (by decide),
    (claim_C10 "a" [] .nil).2.2 "g" ["x"]⟩

end Analyzer
